import Mathlib

/-!
Verification of the MLAS fp16 SQNBitGemm weight-prepacking reference model and of
the fp16/fp32 precision-cast contracts, embedded from
`test/mlas/unittest/test_sqnbitgemm_neon_fp16.cpp`.

Buffers of bytes are embedded as total functions `ℕ → ℕ` (a byte buffer maps an
index to a byte value).  The prepacking routine of the source mutates a
destination buffer through a sequence of byte stores; each store is recorded as
a write event `(index, value)`, and the final buffer is obtained by replaying
the events over the initial buffer.  This keeps the exact store order of the
C++ loops and makes out-of-range stores observable.

The C++ `for` loops are embedded as structurally recursive functions carrying a
fuel argument; the fuel chosen at each call site is an upper bound on the trip
count (proved by the unrolling lemmas below), so the embedded loop performs
exactly the iterations the C++ loop performs.
-/

namespace SQNBit

/-- The byte stride of one column, exactly as the test computes it:
`constexpr size_t Ldb = (((K + BlkLen - 1) & (~(BlkLen - 1))) * Bits + 7) / 8;`
with `Bits = 4`.  `~(BlkLen - 1)` is the 64-bit complement of `BlkLen - 1`;
for `BlkLen = 2^b` it equals `2^64 - 2^b`. -/
def ldbImpl (K BlkLen : ℕ) : ℕ :=
  (((K + BlkLen - 1) &&& (2 ^ 64 - BlkLen)) * 4 + 7) / 8

/-- The common size of the input, packed and reference buffers in the test:
`constexpr size_t BufferSize = N * Ldb;`. -/
def bufferSize (N K BlkLen : ℕ) : ℕ := N * ldbImpl K BlkLen

/-- `GetInt4(v, i)`: the 4-bit value at parity `i` of byte `v`:
`return (i & 1) ? (v >> 4) : (v & 0x0f);`. -/
def getInt4 (v i : ℕ) : ℕ := if i % 2 = 1 then v >>> 4 else v &&& 15

/-- The eight by eight byte transpose `Transpose8x8(src, n, k, dst)`:
for `c, r < 8` it stores `src[(n + c) * Ldb + r + k]` into
`dst[n * Ldb + (r + k) * 8 + c]`.  The list records the stores in the loop
order of the source (`c` outer, `r` inner). -/
def transpose8x8Writes (Ldb : ℕ) (src : ℕ → ℕ) (n k : ℕ) : List (ℕ × ℕ) :=
  (List.range 8).flatMap fun c =>
    (List.range 8).map fun r =>
      (n * Ldb + (r + k) * 8 + c, src ((n + c) * Ldb + (r + k)))

/-- One call of `PrepackSlice(src, j, dst)`: for `i < 8` it stores
`GetInt4(src[j + (i >> 1)], i) | (GetInt4(src[j + ((8 + i) >> 1)], i + 8) << 4)`
into `dst[j + i]`. -/
def prepackSliceWrites (src : ℕ → ℕ) (j : ℕ) : List (ℕ × ℕ) :=
  (List.range 8).map fun i =>
    (j + i, getInt4 (src (j + i / 2)) i ||| getInt4 (src (j + (8 + i) / 2)) (i + 8) <<< 4)

/-- The inner chunk loop of the full-tile path:
`for (size_t k = 0; k < Ldb; k += 8) Transpose8x8<Ldb>(src, n, k, dst);`. -/
def tileKLoop (Ldb : ℕ) (src : ℕ → ℕ) (n : ℕ) : ℕ → ℕ → List (ℕ × ℕ)
  | 0, _ => []
  | fuel + 1, k =>
    if k < Ldb then transpose8x8Writes Ldb src n k ++ tileKLoop Ldb src n fuel (k + 8)
    else []

/-- The inner chunk loop of the tail path:
`for (int k = 0; k < Ldb; k += 8) PrepackSlice(src, n * Ldb + k, dst);`. -/
def sliceKLoop (Ldb : ℕ) (src : ℕ → ℕ) (n : ℕ) : ℕ → ℕ → List (ℕ × ℕ)
  | 0, _ => []
  | fuel + 1, k =>
    if k < Ldb then prepackSliceWrites src (n * Ldb + k) ++ sliceKLoop Ldb src n fuel (k + 8)
    else []

/-- The second column loop of `Prepack`: `for (; n < N; ++n) { ... }`. -/
def tailNLoop (N Ldb : ℕ) (src : ℕ → ℕ) : ℕ → ℕ → List (ℕ × ℕ)
  | 0, _ => []
  | fuel + 1, n =>
    if n < N then sliceKLoop Ldb src n Ldb 0 ++ tailNLoop N Ldb src fuel (n + 1)
    else []

/-- The first column loop of `Prepack`: `for (; n + 8 <= N; n += 8) { ... }`,
falling through into the tail loop with the current `n` when its guard fails. -/
def tileNLoop (N Ldb : ℕ) (src : ℕ → ℕ) : ℕ → ℕ → List (ℕ × ℕ)
  | 0, _ => []
  | fuel + 1, n =>
    if n + 8 ≤ N then tileKLoop Ldb src n Ldb 0 ++ tileNLoop N Ldb src fuel (n + 8)
    else tailNLoop N Ldb src N n

/-- All byte stores performed by `Prepack<Ldb, N, K>(src, dst)`, in order. -/
def prepackEvents (N Ldb : ℕ) (src : ℕ → ℕ) : List (ℕ × ℕ) :=
  tileNLoop N Ldb src (N + 1) 0

/-- Replay a list of stores over a buffer. -/
def applyWrites (l : List (ℕ × ℕ)) (f : ℕ → ℕ) : ℕ → ℕ :=
  l.foldl (fun g p => Function.update g p.1 p.2) f

/-- The destination buffer produced by `Prepack` from source `src` when the
destination initially holds `init`. -/
def prepack (N Ldb : ℕ) (src init : ℕ → ℕ) : ℕ → ℕ :=
  applyWrites (prepackEvents N Ldb src) init

/-- The destination indices `Prepack` stores to, in store order. -/
def writeIndices (N Ldb : ℕ) (src : ℕ → ℕ) : List ℕ :=
  (prepackEvents N Ldb src).map Prod.fst

/-- The source indices one `Transpose8x8(src, n, k, dst)` call loads from. -/
def transposeReadIndices (Ldb n k : ℕ) : List ℕ :=
  (List.range 8).flatMap fun c => (List.range 8).map fun r => (n + c) * Ldb + (r + k)

/-- The source indices one `PrepackSlice(src, j, dst)` call loads from. -/
def sliceReadIndices (j : ℕ) : List ℕ :=
  (List.range 8).flatMap fun i => [j + i / 2, j + (8 + i) / 2]

/-- Nibble `kidx` of column `col` in the source (column-major) layout: byte
`col * Ldb + kidx / 2`, low nibble for even `kidx`, high nibble for odd. -/
def recoverSrc (src : ℕ → ℕ) (Ldb col kidx : ℕ) : ℕ :=
  getInt4 (src (col * Ldb + kidx / 2)) kidx

/-- Nibble `kidx` of column `col` recovered from the packed layout by the
documented addressing rule.  Columns inside a full 8-column tile: the source
byte `(col, kidx / 2)` sits at `8 * (col / 8) * Ldb + (kidx / 2) * 8 + col % 8`
with its two nibbles unchanged.  Tail columns: element `kidx` of the 16-element
group `kidx / 16` is in byte `col * Ldb + 8 * (kidx / 16) + kidx % 16 % 8`, in
the low nibble when `kidx % 16 < 8` and in the high nibble otherwise. -/
def recoverPacked (dst : ℕ → ℕ) (N Ldb col kidx : ℕ) : ℕ :=
  if col < 8 * (N / 8) then
    getInt4 (dst (8 * (col / 8) * Ldb + kidx / 2 * 8 + col % 8)) kidx
  else
    if kidx % 16 < 8 then getInt4 (dst (col * Ldb + 8 * (kidx / 16) + kidx % 16)) 0
    else getInt4 (dst (col * Ldb + 8 * (kidx / 16) + (kidx % 16 - 8))) 1

/-- The stores of one full-tile column group: all `Transpose8x8` calls of the
chunk loop at column `n`, as a flat list. -/
def tileChunkEvents (Ldb : ℕ) (src : ℕ → ℕ) (n : ℕ) : List (ℕ × ℕ) :=
  (List.range ((Ldb + 7) / 8)).flatMap fun i => transpose8x8Writes Ldb src n (8 * i)

/-- The stores of one tail column: all `PrepackSlice` calls of the chunk loop
at column `n`, as a flat list. -/
def colSliceEvents (Ldb : ℕ) (src : ℕ → ℕ) (n : ℕ) : List (ℕ × ℕ) :=
  (List.range ((Ldb + 7) / 8)).flatMap fun i => prepackSliceWrites src (n * Ldb + 8 * i)

/-- Claim C1 as stated: with `Ldb` computed from `(K, BlkLen)`, every store of
the packer stays inside the `N * Ldb`-byte destination buffer, and the
`(column, K-index) -> 4-bit-value` mapping recovered from the packed buffer by
the documented addressing rule agrees with the one recovered from the source
(pointwise agreement on the common key set `col < N`, `kidx < 2 * Ldb`, which
is equivalent to equality of the multisets of key-value pairs). -/
def c1Statement (N K BlkLen : ℕ) (src init : ℕ → ℕ) : Prop :=
  (∀ x ∈ writeIndices N (ldbImpl K BlkLen) src, x < N * ldbImpl K BlkLen) ∧
  ∀ col kidx, col < N → kidx < 2 * ldbImpl K BlkLen →
    recoverPacked (prepack N (ldbImpl K BlkLen) src init) N (ldbImpl K BlkLen) col kidx =
      recoverSrc src (ldbImpl K BlkLen) col kidx

/-- Claim C2 as stated: for every `n` with `n + 8 ≤ N` (not only tile-aligned
`n`) and every 8-aligned chunk offset `k < Ldb`, the packed byte at
`n * Ldb + (r + k) * 8 + c` is the source byte at `(n + c) * Ldb + (r + k)`. -/
def c2Statement (N Ldb : ℕ) (src init : ℕ → ℕ) : Prop :=
  ∀ n k r c, n + 8 ≤ N → k % 8 = 0 → k < Ldb → r < 8 → c < 8 →
    prepack N Ldb src init (n * Ldb + (r + k) * 8 + c) = src ((n + c) * Ldb + (r + k))

/-- Claim C3: on every tail column and every 8-byte chunk (16 quantized
elements), output byte `i` of the chunk carries element `i` of the group in
its low nibble and element `i + 8` in its high nibble, elements being read
from the source with the low-nibble-first convention (`recoverSrc`). -/
def c3Statement (N Ldb : ℕ) (src init : ℕ → ℕ) : Prop :=
  ∀ col, 8 * (N / 8) ≤ col → col < N →
    ∀ g, 8 * g < Ldb → ∀ i, i < 8 →
      prepack N Ldb src init (col * Ldb + 8 * g + i) % 16 =
          recoverSrc src Ldb col (16 * g + i) ∧
        prepack N Ldb src init (col * Ldb + 8 * g + i) / 16 =
          recoverSrc src Ldb col (16 * g + i + 8)

/-- Claim C4: the packer processes exactly `N / 8` full tiles by the transpose
path, then exactly `N % 8` tail columns by the regroup path; each transpose
tile covers 8 in-range columns (never a partial tile), and when `8 ∣ N` no
column takes the regroup path. -/
def c4Statement (N Ldb : ℕ) (src : ℕ → ℕ) : Prop :=
  prepackEvents N Ldb src =
      ((List.range (N / 8)).flatMap fun t => tileChunkEvents Ldb src (8 * t)) ++
        ((List.range (N % 8)).flatMap fun t => colSliceEvents Ldb src (8 * (N / 8) + t)) ∧
    (∀ t, t < N / 8 → 8 * t + 8 ≤ N) ∧
    (N % 8 = 0 →
      prepackEvents N Ldb src =
        (List.range (N / 8)).flatMap fun t => tileChunkEvents Ldb src (8 * t))

/-- Claim C8: `Ldb` as computed by the implementation equals
`ceil(K_padded * 4 / 8)` where `K_padded = BlkLen * ceil(K / BlkLen)` is `K`
rounded up to the next multiple of `BlkLen`, and the common buffer size is
`N * Ldb`.  The `ceil` is pinned by the formula `(x + 7) / 8` together with
the two bracketing inequalities, and `K_padded` by `K ≤ K_padded < K + BlkLen`
with `BlkLen ∣ K_padded`. -/
def c8Statement (N K b : ℕ) : Prop :=
  (K ≤ 2 ^ b * ((K + 2 ^ b - 1) / 2 ^ b) ∧
      2 ^ b * ((K + 2 ^ b - 1) / 2 ^ b) < K + 2 ^ b ∧
      2 ^ b ∣ 2 ^ b * ((K + 2 ^ b - 1) / 2 ^ b)) ∧
    ldbImpl K (2 ^ b) = (2 ^ b * ((K + 2 ^ b - 1) / 2 ^ b) * 4 + 7) / 8 ∧
    2 ^ b * ((K + 2 ^ b - 1) / 2 ^ b) * 4 ≤ 8 * ldbImpl K (2 ^ b) ∧
    8 * ldbImpl K (2 ^ b) < 2 ^ b * ((K + 2 ^ b - 1) / 2 ^ b) * 4 + 8 ∧
    bufferSize N K (2 ^ b) = N * ((2 ^ b * ((K + 2 ^ b - 1) / 2 ^ b) * 4 + 7) / 8)

/-- Claim C9: each destination index below `N * Ldb` is stored to exactly
once, no index outside is ever stored to, and the buffer beyond `N * Ldb` is
untouched (the source buffer is only read: `prepack` stores only to the
destination by construction). -/
def c9Statement (N K b : ℕ) (src init : ℕ → ℕ) : Prop :=
  (∀ x, (writeIndices N (ldbImpl K (2 ^ b)) src).count x =
      if x < N * ldbImpl K (2 ^ b) then 1 else 0) ∧
    ∀ x, N * ldbImpl K (2 ^ b) ≤ x →
      prepack N (ldbImpl K (2 ^ b)) src init x = init x

/-- Claim C10: with `BlkLen = 2^b ≥ 16`, the stride is a multiple of 8, the
chunk loops cover each column exactly (no partial final chunk), every store
lands inside the `N * Ldb` buffer, and every load of the transpose path is
inside the buffer while every load of the regroup path stays inside the
current column's byte range. -/
def c10Statement (N K b : ℕ) (src : ℕ → ℕ) : Prop :=
  ldbImpl K (2 ^ b) % 8 = 0 ∧
    8 * ((ldbImpl K (2 ^ b) + 7) / 8) = ldbImpl K (2 ^ b) ∧
    (∀ x ∈ writeIndices N (ldbImpl K (2 ^ b)) src, x < N * ldbImpl K (2 ^ b)) ∧
    (∀ t, t < N / 8 → ∀ i, 8 * i < ldbImpl K (2 ^ b) →
      ∀ x ∈ transposeReadIndices (ldbImpl K (2 ^ b)) (8 * t) (8 * i),
        x < N * ldbImpl K (2 ^ b)) ∧
    ∀ n, 8 * (N / 8) ≤ n → n < N → ∀ i, 8 * i < ldbImpl K (2 ^ b) →
      ∀ x ∈ sliceReadIndices (n * ldbImpl K (2 ^ b) + 8 * i),
        n * ldbImpl K (2 ^ b) ≤ x ∧ x < (n + 1) * ldbImpl K (2 ^ b)

end SQNBit

namespace FpCast


/-!
The production conversion kernels `MlasCastF16ToF32KernelNeon` and
`MlasCastF32ToF16KernelNeon`, and the scalar reference `MLAS_FP16`, are not
among the sampled sources — only their caller (the cast test) is.  They are
modelled here from the spec: the widening of a finite 16-bit pattern is exact,
the narrowing of a 32-bit value is round-to-nearest(-even), and both buffer
operations process vector-width chunks with an elementwise scalar tail of
identical semantics.

Values are compared exactly: a floating-point pattern is mapped to its
mathematical value in units of `2^-150` (the granularity of 32-bit subnormals),
which is a natural number for every finite fp16/fp32 pattern.
-/

/-- Exact magnitude of the fp16 bit pattern `p` in units of `2^-150`:
subnormals are `m * 2^-24`, normals `(1024 + m) * 2^(e - 25)`. -/
def f16Mag (p : ℕ) : ℕ :=
  if p / 2 ^ 10 % 32 = 0 then p % 2 ^ 10 * 2 ^ 126
  else (2 ^ 10 + p % 2 ^ 10) * 2 ^ (p / 2 ^ 10 % 32 + 125)

/-- Exact signed value of the fp16 bit pattern `p` in units of `2^-150`. -/
def f16Val (p : ℕ) : ℤ :=
  (if p / 2 ^ 15 % 2 = 1 then -1 else 1) * (f16Mag p : ℤ)

/-- Exact magnitude of the fp32 bit pattern `p` in units of `2^-150`:
subnormals are `m * 2^-149`, normals `(2^23 + m) * 2^(e - 150)`. -/
def f32Mag (p : ℕ) : ℕ :=
  if p / 2 ^ 23 % 256 = 0 then p % 2 ^ 23 * 2
  else (2 ^ 23 + p % 2 ^ 23) * 2 ^ (p / 2 ^ 23 % 256)

/-- Exact signed value of the fp32 bit pattern `p` in units of `2^-150`. -/
def f32Val (p : ℕ) : ℤ :=
  (if p / 2 ^ 31 % 2 = 1 then -1 else 1) * (f32Mag p : ℤ)

/-- Subnormal normalization loop: double `m` until it reaches the implicit
bit `1024`, returning the normalized mantissa and the shift count. -/
def normLoop : ℕ → ℕ → ℕ × ℕ
  | 0, m => (m, 0)
  | fuel + 1, m =>
    if m < 1024 then
      let r := normLoop fuel (2 * m)
      (r.1, r.2 + 1)
    else (m, 0)

/-- Modelled from the spec: the scalar fp16→fp32 widening conversion that
`MlasCastF16ToF32KernelNeon` (not among the sampled sources) applies to each
element — the standard bit-level algorithm: rebias normal exponents by 112,
normalize subnormals, map zero to zero and `e = 31` to the fp32 `e = 255`
class. -/
def widen1 (p : ℕ) : ℕ :=
  let s := p / 2 ^ 15 % 2
  let e := p / 2 ^ 10 % 32
  let m := p % 2 ^ 10
  if e = 0 then
    if m = 0 then s * 2 ^ 31
    else
      let r := normLoop 10 m
      s * 2 ^ 31 + (113 - r.2) * 2 ^ 23 + (r.1 - 2 ^ 10) * 2 ^ 13
  else if e = 31 then s * 2 ^ 31 + 255 * 2 ^ 23 + m * 2 ^ 13
  else s * 2 ^ 31 + (e + 112) * 2 ^ 23 + m * 2 ^ 13

/-- Round `a / 2^k` to the nearest integer, ties to even, by the classic
add-and-shift formula (`k ≥ 1`). -/
def rne (a k : ℕ) : ℕ := (a + 2 ^ (k - 1) - 1 + a / 2 ^ k % 2) / 2 ^ k

/-- Modelled from the spec: the scalar round-to-nearest fp32→fp16 narrowing
conversion that `MlasCastF32ToF16KernelNeon` and the reference `MLAS_FP16`
(not among the sampled sources) apply to each element: round the mantissa with
`rne`, rebias the exponent by 112, flush to the subnormal/zero range below
`e = 113`, overflow to infinity at and beyond the rounding boundary, and keep
the `e = 255` class (infinity / NaN) intact. -/
def narrow1 (p : ℕ) : ℕ :=
  let s := p / 2 ^ 31 % 2
  let e := p / 2 ^ 23 % 256
  let m := p % 2 ^ 23
  if e = 255 then
    if m = 0 then s * 2 ^ 15 + 31744 else s * 2 ^ 15 + 32256
  else
    s * 2 ^ 15 +
      (if 143 ≤ e then 31744
       else if 113 ≤ e then (e - 113) * 2 ^ 10 + rne (2 ^ 23 + m) 13
       else rne (f32Mag p) 126)

/-- Modelled from the spec: `WidenToFull` over a buffer — vector-width (4
element) chunks, scalar tail with identical semantics. -/
def castF16toF32 (src : List ℕ) (count : ℕ) : List ℕ :=
  if 4 ≤ count then (src.take 4).map widen1 ++ castF16toF32 (src.drop 4) (count - 4)
  else (src.take count).map widen1
termination_by count
decreasing_by omega

/-- Modelled from the spec: `NarrowToHalf` over a buffer — vector-width (4
element) chunks, scalar tail with identical semantics. -/
def castF32toF16 (src : List ℕ) (count : ℕ) : List ℕ :=
  if 4 ≤ count then (src.take 4).map narrow1 ++ castF32toF16 (src.drop 4) (count - 4)
  else (src.take count).map narrow1
termination_by count
decreasing_by omega

/-- Distance between two naturals. -/
def ndist (a b : ℕ) : ℕ := max a b - min a b

/-- The fp16 magnitude grid in units of `2^-150`, indexed by the 15 magnitude
bits of a pattern; index `0x7C00 = 31744` stands for the overflow threshold
`2^16` (the value the IEEE rounding rule uses to decide overflow to
infinity). -/
def val16grid (i : ℕ) : ℕ :=
  if i < 1024 then i * 2 ^ 126 else (2 ^ 10 + i % 2 ^ 10) * 2 ^ (i / 2 ^ 10 + 125)

/-- Gap between grid points `i` and `i + 1`. -/
def gap16 (i : ℕ) : ℕ := if i < 1024 then 2 ^ 126 else 2 ^ (i / 2 ^ 10 + 125)

/-- `i` is a nearest grid index to the magnitude `t` (in units of `2^-150`),
with ties broken towards an even index — the defining property of a
round-to-nearest-even conversion, written from the spec's words. -/
def IsNearestEven (t i : ℕ) : Prop :=
  i ≤ 31744 ∧ ∀ j, j ≤ 31744 → j ≠ i →
    ndist (val16grid i) t < ndist (val16grid j) t ∨
      (ndist (val16grid i) t = ndist (val16grid j) t ∧ i % 2 = 0)

/-- Claim C5: on every finite fp16 pattern (exponent field not all-ones), the
widening is exact: the fp32 result denotes the same real value, is itself
finite, and is a 32-bit pattern. -/
def c5Statement (p : ℕ) : Prop :=
  f32Val (widen1 p) = f16Val p ∧ widen1 p / 2 ^ 23 % 256 ≠ 255 ∧ widen1 p < 2 ^ 32

/-- Claim C6: on every finite fp32 pattern, the narrowing preserves the sign
bit and produces the round-to-nearest-even fp16 magnitude; moreover any index
satisfying the nearest-even property equals it — so any independent
round-to-nearest reference conversion agrees bit for bit. -/
def c6Statement (p : ℕ) : Prop :=
  narrow1 p / 2 ^ 15 = p / 2 ^ 31 % 2 ∧
    narrow1 p % 2 ^ 15 ≤ 31744 ∧
    IsNearestEven (f32Mag p) (narrow1 p % 2 ^ 15) ∧
    ∀ j, IsNearestEven (f32Mag p) j → j = narrow1 p % 2 ^ 15

/-- Claim C7: both buffer conversions output exactly `count` elements, each
the scalar conversion of the corresponding input element. -/
def c7Statement (src16 src32 : List ℕ) (count : ℕ) : Prop :=
  ((castF16toF32 src16 count).length = count ∧
      castF16toF32 src16 count = (src16.take count).map widen1) ∧
    (castF32toF16 src32 count).length = count ∧
      castF32toF16 src32 count = (src32.take count).map narrow1

end FpCast

namespace SQNBit

theorem applyWrites_nil (f : ℕ → ℕ) : applyWrites [] f = f := rfl

theorem applyWrites_cons (p : ℕ × ℕ) (l : List (ℕ × ℕ)) (f : ℕ → ℕ) :
    applyWrites (p :: l) f = applyWrites l (Function.update f p.1 p.2) := rfl

theorem applyWrites_append (l₁ l₂ : List (ℕ × ℕ)) (f : ℕ → ℕ) :
    applyWrites (l₁ ++ l₂) f = applyWrites l₂ (applyWrites l₁ f) :=
  List.foldl_append _ _ l₁ l₂

theorem applyWrites_of_not_mem (l : List (ℕ × ℕ)) (f : ℕ → ℕ) (i : ℕ)
    (h : i ∉ l.map Prod.fst) : applyWrites l f i = f i := by
  induction l generalizing f with
  | nil => rfl
  | cons p t ih =>
    simp only [List.map_cons, List.mem_cons, not_or] at h
    rw [applyWrites_cons, ih _ h.2]
    exact Function.update_noteq h.1 _ _

/-- If the store indices of `l` are pairwise distinct and `l` contains the
store `(i, v)`, then after replaying `l` the buffer holds `v` at `i`. -/
theorem applyWrites_of_nodup_mem (l : List (ℕ × ℕ)) (f : ℕ → ℕ) (i v : ℕ)
    (hnd : (l.map Prod.fst).Nodup) (hm : (i, v) ∈ l) : applyWrites l f i = v := by
  induction l generalizing f with
  | nil => simp at hm
  | cons p t ih =>
    simp only [List.map_cons, List.nodup_cons] at hnd
    rcases List.mem_cons.1 hm with h | h
    · rw [applyWrites_cons, applyWrites_of_not_mem _ _ _ (by
        intro hmem
        exact hnd.1 (h ▸ hmem))]
      rw [← h, Function.update_same]
    · exact (applyWrites_cons p t f) ▸ ih _ hnd.2 h

theorem flatMap_map_succ {α : Type} (l : List ℕ) (f : ℕ → List α) :
    (l.map Nat.succ).flatMap f = l.flatMap fun i => f (i + 1) := by
  simp [List.flatMap_map]

theorem tileKLoop_unroll (Ldb : ℕ) (src : ℕ → ℕ) (n : ℕ) :
    ∀ (d fuel c : ℕ), d ≤ fuel → (Ldb + 7) / 8 = c + d →
      tileKLoop Ldb src n fuel (8 * c) =
        (List.range d).flatMap fun i => transpose8x8Writes Ldb src n (8 * (c + i)) := by
  intro d
  induction d with
  | zero =>
    intro fuel c _ hc
    have hk : ¬ 8 * c < Ldb := by omega
    cases fuel with
    | zero => rfl
    | succ m => simp [tileKLoop, hk]
  | succ d ih =>
    intro fuel c hf hc
    have hk : 8 * c < Ldb := by omega
    cases fuel with
    | zero => omega
    | succ m =>
      have h8 : 8 * c + 8 = 8 * (c + 1) := by ring
      rw [tileKLoop, if_pos hk, h8, ih m (c + 1) (by omega) (by omega)]
      rw [List.range_succ_eq_map, List.flatMap_cons, flatMap_map_succ]
      have : (fun i => transpose8x8Writes Ldb src n (8 * (c + 1 + i))) =
          fun i => transpose8x8Writes Ldb src n (8 * (c + (i + 1))) := by
        funext i; congr 1; ring
      rw [this, Nat.add_zero]

theorem sliceKLoop_unroll (Ldb : ℕ) (src : ℕ → ℕ) (n : ℕ) :
    ∀ (d fuel c : ℕ), d ≤ fuel → (Ldb + 7) / 8 = c + d →
      sliceKLoop Ldb src n fuel (8 * c) =
        (List.range d).flatMap fun i => prepackSliceWrites src (n * Ldb + 8 * (c + i)) := by
  intro d
  induction d with
  | zero =>
    intro fuel c _ hc
    have hk : ¬ 8 * c < Ldb := by omega
    cases fuel with
    | zero => rfl
    | succ m => simp [sliceKLoop, hk]
  | succ d ih =>
    intro fuel c hf hc
    have hk : 8 * c < Ldb := by omega
    cases fuel with
    | zero => omega
    | succ m =>
      have h8 : 8 * c + 8 = 8 * (c + 1) := by ring
      rw [sliceKLoop, if_pos hk, h8, ih m (c + 1) (by omega) (by omega)]
      rw [List.range_succ_eq_map, List.flatMap_cons, flatMap_map_succ]
      have : (fun i => prepackSliceWrites src (n * Ldb + 8 * (c + 1 + i))) =
          fun i => prepackSliceWrites src (n * Ldb + 8 * (c + (i + 1))) := by
        funext i; congr 2; ring
      rw [this, Nat.add_zero]

theorem tileKLoop_eq (Ldb : ℕ) (src : ℕ → ℕ) (n : ℕ) :
    tileKLoop Ldb src n Ldb 0 = tileChunkEvents Ldb src n := by
  have h := tileKLoop_unroll Ldb src n ((Ldb + 7) / 8) Ldb 0 (by omega) (by omega)
  simpa [tileChunkEvents] using h

theorem sliceKLoop_eq (Ldb : ℕ) (src : ℕ → ℕ) (n : ℕ) :
    sliceKLoop Ldb src n Ldb 0 = colSliceEvents Ldb src n := by
  have h := sliceKLoop_unroll Ldb src n ((Ldb + 7) / 8) Ldb 0 (by omega) (by omega)
  simpa [colSliceEvents] using h

theorem tailNLoop_unroll (N Ldb : ℕ) (src : ℕ → ℕ) :
    ∀ (d fuel n : ℕ), d ≤ fuel → d = N - n →
      tailNLoop N Ldb src fuel n =
        (List.range d).flatMap fun t => colSliceEvents Ldb src (n + t) := by
  intro d
  induction d with
  | zero =>
    intro fuel n _ hd
    have hn : ¬ n < N := by omega
    cases fuel with
    | zero => rfl
    | succ m => simp [tailNLoop, hn]
  | succ d ih =>
    intro fuel n hf hd
    have hn : n < N := by omega
    cases fuel with
    | zero => omega
    | succ m =>
      rw [tailNLoop, if_pos hn, sliceKLoop_eq, ih m (n + 1) (by omega) (by omega)]
      rw [List.range_succ_eq_map, List.flatMap_cons, flatMap_map_succ]
      have : (fun t => colSliceEvents Ldb src (n + 1 + t)) =
          fun t => colSliceEvents Ldb src (n + (t + 1)) := by
        funext t; congr 1; ring
      rw [this, Nat.add_zero]

theorem tileNLoop_unroll (N Ldb : ℕ) (src : ℕ → ℕ) :
    ∀ (d fuel n : ℕ), d + 1 ≤ fuel → d = (N - n) / 8 →
      tileNLoop N Ldb src fuel n =
        ((List.range d).flatMap fun t => tileChunkEvents Ldb src (n + 8 * t)) ++
          tailNLoop N Ldb src N (n + 8 * d) := by
  intro d
  induction d with
  | zero =>
    intro fuel n hf hd
    have hn : ¬ n + 8 ≤ N := by omega
    cases fuel with
    | zero => omega
    | succ m => simp [tileNLoop, hn]
  | succ d ih =>
    intro fuel n hf hd
    have hn : n + 8 ≤ N := by omega
    cases fuel with
    | zero => omega
    | succ m =>
      rw [tileNLoop, if_pos hn, tileKLoop_eq, ih m (n + 8) (by omega) (by omega)]
      rw [List.range_succ_eq_map, List.flatMap_cons, flatMap_map_succ, List.append_assoc]
      have h1 : (fun t => tileChunkEvents Ldb src (n + 8 + 8 * t)) =
          fun t => tileChunkEvents Ldb src (n + 8 * (t + 1)) := by
        funext t; congr 1; ring
      have h2 : n + 8 + 8 * d = n + 8 * (d + 1) := by ring
      rw [h1, h2]
      simp

/-- Master normal form of `Prepack`: the first `N / 8 * 8` columns are handled
tile by tile by the transpose path, then the last `N % 8` columns one by one
by the nibble-regroup path. -/
theorem prepackEvents_eq (N Ldb : ℕ) (src : ℕ → ℕ) :
    prepackEvents N Ldb src =
      ((List.range (N / 8)).flatMap fun t => tileChunkEvents Ldb src (8 * t)) ++
        (List.range (N % 8)).flatMap fun t => colSliceEvents Ldb src (8 * (N / 8) + t) := by
  rw [prepackEvents,
    tileNLoop_unroll N Ldb src (N / 8) (N + 1) 0 (by omega) (by omega),
    tailNLoop_unroll N Ldb src (N % 8) N (0 + 8 * (N / 8)) (by omega) (by omega)]
  simp only [Nat.zero_add]

theorem mem_range_flatMap {f : ℕ → List ℕ} {M x : ℕ} :
    x ∈ (List.range M).flatMap f ↔ ∃ t, t < M ∧ x ∈ f t := by
  simp [List.mem_flatMap, List.mem_range]

/-- A flat map over `range M` of blocks lying in pairwise separated intervals
is duplicate-free as soon as each block is. -/
theorem nodup_range_flatMap {f : ℕ → List ℕ} {M : ℕ} (lo hi : ℕ → ℕ)
    (hnd : ∀ t, t < M → (f t).Nodup)
    (hbound : ∀ t, t < M → ∀ x ∈ f t, lo t ≤ x ∧ x < hi t)
    (hsep : ∀ t t', t < t' → t' < M → hi t ≤ lo t') :
    ((List.range M).flatMap f).Nodup := by
  rw [List.nodup_flatMap]
  refine ⟨fun t ht => hnd t (List.mem_range.1 ht), ?_⟩
  refine List.Pairwise.imp_of_mem ?_ (List.pairwise_lt_range M)
  intro a b ha hb hab
  intro x hxa hxb
  have h1 := hbound a (List.mem_range.1 ha) x hxa
  have h2 := hbound b (List.mem_range.1 hb) x hxb
  have h3 := hsep a b hab (List.mem_range.1 hb)
  omega

/-- The store indices of `Prepack`, written out as nested ranges. -/
theorem writeIndices_eq (N Ldb : ℕ) (src : ℕ → ℕ) :
    writeIndices N Ldb src =
      ((List.range (N / 8)).flatMap fun t =>
        (List.range ((Ldb + 7) / 8)).flatMap fun i =>
          (List.range 8).flatMap fun c =>
            (List.range 8).map fun r => 8 * t * Ldb + (r + 8 * i) * 8 + c) ++
      ((List.range (N % 8)).flatMap fun t =>
        (List.range ((Ldb + 7) / 8)).flatMap fun i =>
          (List.range 8).map fun q => (8 * (N / 8) + t) * Ldb + 8 * i + q) := by
  simp [writeIndices, prepackEvents_eq, tileChunkEvents, colSliceEvents,
    transpose8x8Writes, prepackSliceWrites, List.map_append, List.map_flatMap,
    List.map_map, Function.comp_def, Nat.add_assoc]

/-- The 64 store indices of one `Transpose8x8` call are pairwise distinct:
the low three bits give `c`, the rest give `r + k`. -/
theorem inner88_nodup (b k : ℕ) :
    ((List.range 8).flatMap fun c => (List.range 8).map fun r => b + (r + k) * 8 + c).Nodup := by
  rw [List.nodup_flatMap]
  constructor
  · intro c _
    refine List.Nodup.map ?_ (List.nodup_range 8)
    intro r1 r2 h
    try dsimp only at h
    omega
  · refine List.Pairwise.imp_of_mem ?_ (List.pairwise_lt_range 8)
    intro a a' ha ha' haa x hxa hxa'
    have h8 := List.mem_range.1 ha
    have h8' := List.mem_range.1 ha'
    rcases List.mem_map.1 hxa with ⟨r1, hr1, h1⟩
    rcases List.mem_map.1 hxa' with ⟨r2, hr2, h2⟩
    try dsimp only at h1 h2
    omega

theorem tileBlockIdx_nodup (b L8 : ℕ) :
    ((List.range L8).flatMap fun i =>
      (List.range 8).flatMap fun c =>
        (List.range 8).map fun r => b + (r + 8 * i) * 8 + c).Nodup := by
  refine nodup_range_flatMap (fun i => b + 64 * i) (fun i => b + 64 * i + 64)
    ?_ ?_ ?_
  · intro i _
    exact inner88_nodup b (8 * i)
  · intro i _ x hx
    rcases mem_range_flatMap.1 hx with ⟨c, hc, hx⟩
    rcases List.mem_map.1 hx with ⟨r, hr, rfl⟩
    have := List.mem_range.1 hr
    try dsimp only
    constructor <;> omega
  · intro i i' hii hi'
    try dsimp only
    omega

theorem tileBlockIdx_mem (b L8 x : ℕ) :
    (x ∈ (List.range L8).flatMap fun i =>
      (List.range 8).flatMap fun c =>
        (List.range 8).map fun r => b + (r + 8 * i) * 8 + c) ↔
      b ≤ x ∧ x < b + 64 * L8 := by
  constructor
  · intro hx
    rcases mem_range_flatMap.1 hx with ⟨i, hi, hx⟩
    rcases mem_range_flatMap.1 hx with ⟨c, hc, hx⟩
    rcases List.mem_map.1 hx with ⟨r, hr, rfl⟩
    have := List.mem_range.1 hr
    try dsimp only
    constructor <;> omega
  · rintro ⟨hlo, hhi⟩
    refine mem_range_flatMap.2 ⟨(x - b) / 64, by omega, ?_⟩
    refine mem_range_flatMap.2 ⟨(x - b) % 8, by omega, ?_⟩
    refine List.mem_map.2 ⟨(x - b) / 8 % 8, List.mem_range.2 (by omega), ?_⟩
    omega

theorem colBlockIdx_nodup (b L8 : ℕ) :
    ((List.range L8).flatMap fun i => (List.range 8).map fun q => b + 8 * i + q).Nodup := by
  refine nodup_range_flatMap (fun i => b + 8 * i) (fun i => b + 8 * i + 8)
    ?_ ?_ ?_
  · intro i _
    refine List.Nodup.map ?_ (List.nodup_range 8)
    intro q1 q2 h
    try dsimp only at h
    omega
  · intro i _ x hx
    rcases List.mem_map.1 hx with ⟨q, hq, rfl⟩
    have := List.mem_range.1 hq
    try dsimp only
    constructor <;> omega
  · intro i i' hii hi'
    try dsimp only
    omega

theorem colBlockIdx_mem (b L8 x : ℕ) :
    (x ∈ (List.range L8).flatMap fun i => (List.range 8).map fun q => b + 8 * i + q) ↔
      b ≤ x ∧ x < b + 8 * L8 := by
  constructor
  · intro hx
    rcases mem_range_flatMap.1 hx with ⟨i, hi, hx⟩
    rcases List.mem_map.1 hx with ⟨q, hq, rfl⟩
    have := List.mem_range.1 hq
    try dsimp only
    constructor <;> omega
  · rintro ⟨hlo, hhi⟩
    refine mem_range_flatMap.2 ⟨(x - b) / 8, by omega, ?_⟩
    refine List.mem_map.2 ⟨(x - b) % 8, List.mem_range.2 (by omega), ?_⟩
    omega

theorem chunkCount_eq (Ldb L8 : ℕ) (h : Ldb = 8 * L8) : (Ldb + 7) / 8 = L8 := by omega

/-- When `Ldb` is a multiple of 8 no two stores of `Prepack` hit the same
destination byte. -/
theorem writeIndices_nodup (N Ldb L8 : ℕ) (src : ℕ → ℕ) (hL : Ldb = 8 * L8) :
    (writeIndices N Ldb src).Nodup := by
  rw [writeIndices_eq, chunkCount_eq Ldb L8 hL]
  refine List.Nodup.append ?_ ?_ ?_
  · refine nodup_range_flatMap (fun t => 8 * t * Ldb) (fun t => (8 * t + 8) * Ldb)
      ?_ ?_ ?_
    · intro t _
      exact tileBlockIdx_nodup _ L8
    · intro t _ x hx
      rw [tileBlockIdx_mem] at hx
      have e1 : 8 * t * Ldb + 64 * L8 = (8 * t + 8) * Ldb := by rw [hL]; ring
      try dsimp only
      omega
    · intro t t' htt ht'
      try dsimp only
      exact Nat.mul_le_mul_right Ldb (by omega)
  · refine nodup_range_flatMap (fun t => (8 * (N / 8) + t) * Ldb)
      (fun t => (8 * (N / 8) + t + 1) * Ldb) ?_ ?_ ?_
    · intro t _
      exact colBlockIdx_nodup _ L8
    · intro t _ x hx
      rw [colBlockIdx_mem] at hx
      have e1 : (8 * (N / 8) + t) * Ldb + 8 * L8 = (8 * (N / 8) + t + 1) * Ldb := by rw [hL]; ring
      try dsimp only
      omega
    · intro t t' htt ht'
      try dsimp only
      exact Nat.mul_le_mul_right Ldb (by omega)
  · intro x hx hx'
    rcases mem_range_flatMap.1 hx with ⟨t, ht, hxt⟩
    rw [tileBlockIdx_mem] at hxt
    rcases mem_range_flatMap.1 hx' with ⟨t', ht', hxt'⟩
    rw [colBlockIdx_mem] at hxt'
    have e1 : 8 * t * Ldb + 64 * L8 = (8 * t + 8) * Ldb := by rw [hL]; ring
    have e2 : (8 * t + 8) * Ldb ≤ 8 * (N / 8) * Ldb := Nat.mul_le_mul_right Ldb (by omega)
    have e3 : 8 * (N / 8) * Ldb ≤ (8 * (N / 8) + t') * Ldb := Nat.mul_le_mul_right Ldb (by omega)
    omega

/-- With `Ldb` a positive multiple of 8, the stores of `Prepack` hit exactly
the destination indices below `N * Ldb`. -/
theorem mem_writeIndices (N Ldb L8 : ℕ) (src : ℕ → ℕ) (hL : Ldb = 8 * L8) (hpos : 0 < L8)
    (x : ℕ) : x ∈ writeIndices N Ldb src ↔ x < N * Ldb := by
  have hLpos : 0 < Ldb := by omega
  rw [writeIndices_eq, chunkCount_eq Ldb L8 hL, List.mem_append]
  constructor
  · rintro (hx | hx)
    · rcases mem_range_flatMap.1 hx with ⟨t, ht, hxt⟩
      rw [tileBlockIdx_mem] at hxt
      have e1 : 8 * t * Ldb + 64 * L8 = (8 * t + 8) * Ldb := by rw [hL]; ring
      have e2 : (8 * t + 8) * Ldb ≤ N * Ldb := Nat.mul_le_mul_right Ldb (by omega)
      omega
    · rcases mem_range_flatMap.1 hx with ⟨t, ht, hxt⟩
      rw [colBlockIdx_mem] at hxt
      have e1 : (8 * (N / 8) + t) * Ldb + 8 * L8 = (8 * (N / 8) + t + 1) * Ldb := by
        rw [hL]; ring
      have e2 : (8 * (N / 8) + t + 1) * Ldb ≤ N * Ldb := Nat.mul_le_mul_right Ldb (by omega)
      omega
  · intro hx
    have hcol : x / Ldb < N := (Nat.div_lt_iff_lt_mul hLpos).2 (by omega)
    have hcolle : Ldb * (x / Ldb) + x % Ldb = x := Nat.div_add_mod x Ldb
    have hrem : x % Ldb < Ldb := Nat.mod_lt _ hLpos
    by_cases hc : x / Ldb < 8 * (N / 8)
    · left
      refine mem_range_flatMap.2 ⟨x / Ldb / 8, by omega, ?_⟩
      rw [tileBlockIdx_mem]
      have h1 : 8 * (x / Ldb / 8) * Ldb ≤ (x / Ldb) * Ldb := Nat.mul_le_mul_right Ldb (by omega)
      have h2 : (x / Ldb + 1) * Ldb ≤ (8 * (x / Ldb / 8) + 8) * Ldb :=
        Nat.mul_le_mul_right Ldb (by omega)
      have h3 : (x / Ldb) * Ldb = Ldb * (x / Ldb) := Nat.mul_comm _ _
      have h4 : (x / Ldb + 1) * Ldb = Ldb * (x / Ldb) + Ldb := by ring
      have e1 : 8 * (x / Ldb / 8) * Ldb + 64 * L8 = (8 * (x / Ldb / 8) + 8) * Ldb := by
        rw [hL]; ring
      omega
    · right
      refine mem_range_flatMap.2 ⟨x / Ldb - 8 * (N / 8), by omega, ?_⟩
      have hco : 8 * (N / 8) + (x / Ldb - 8 * (N / 8)) = x / Ldb := by omega
      rw [colBlockIdx_mem, hco]
      have h3 : (x / Ldb) * Ldb = Ldb * (x / Ldb) := Nat.mul_comm _ _
      have h4 : (x / Ldb + 1) * Ldb = Ldb * (x / Ldb) + Ldb := by ring
      have e1 : (x / Ldb) * Ldb + 8 * L8 = (x / Ldb + 1) * Ldb := by rw [hL]; ring
      omega

/-- The store a `Transpose8x8` call performs for offsets `(c, r)`. -/
theorem transpose_event_mem (Ldb : ℕ) (src : ℕ → ℕ) (n k c r : ℕ) (hc : c < 8) (hr : r < 8) :
    (n * Ldb + (r + k) * 8 + c, src ((n + c) * Ldb + (r + k))) ∈
      transpose8x8Writes Ldb src n k :=
  List.mem_flatMap.2 ⟨c, List.mem_range.2 hc, List.mem_map.2 ⟨r, List.mem_range.2 hr, rfl⟩⟩

/-- The store a `PrepackSlice` call performs for offset `q`. -/
theorem slice_event_mem (src : ℕ → ℕ) (j q : ℕ) (hq : q < 8) :
    (j + q, getInt4 (src (j + q / 2)) q ||| getInt4 (src (j + (8 + q) / 2)) (q + 8) <<< 4) ∈
      prepackSliceWrites src j :=
  List.mem_map.2 ⟨q, List.mem_range.2 hq, rfl⟩

theorem prepackEvents_mem_tile (N Ldb : ℕ) (src : ℕ → ℕ) (t i c r : ℕ)
    (ht : t < N / 8) (hi : i < (Ldb + 7) / 8) (hc : c < 8) (hr : r < 8) :
    (8 * t * Ldb + (r + 8 * i) * 8 + c, src ((8 * t + c) * Ldb + (r + 8 * i))) ∈
      prepackEvents N Ldb src := by
  rw [prepackEvents_eq]
  refine List.mem_append.2 (Or.inl (List.mem_flatMap.2 ⟨t, List.mem_range.2 ht, ?_⟩))
  exact List.mem_flatMap.2 ⟨i, List.mem_range.2 hi, transpose_event_mem Ldb src _ _ c r hc hr⟩

theorem prepackEvents_mem_slice (N Ldb : ℕ) (src : ℕ → ℕ) (t i q : ℕ)
    (ht : t < N % 8) (hi : i < (Ldb + 7) / 8) (hq : q < 8) :
    ((8 * (N / 8) + t) * Ldb + 8 * i + q,
      getInt4 (src ((8 * (N / 8) + t) * Ldb + 8 * i + q / 2)) q |||
        getInt4 (src ((8 * (N / 8) + t) * Ldb + 8 * i + (8 + q) / 2)) (q + 8) <<< 4) ∈
      prepackEvents N Ldb src := by
  rw [prepackEvents_eq]
  refine List.mem_append.2 (Or.inr (List.mem_flatMap.2 ⟨t, List.mem_range.2 ht, ?_⟩))
  refine List.mem_flatMap.2 ⟨i, List.mem_range.2 hi, ?_⟩
  have h := slice_event_mem src ((8 * (N / 8) + t) * Ldb + 8 * i) q hq
  simpa [Nat.add_assoc] using h

/-- Value of a destination byte written by the transpose path. -/
theorem prepack_tile_byte (N Ldb L8 : ℕ) (src init : ℕ → ℕ) (hL : Ldb = 8 * L8)
    (t i c r : ℕ) (ht : t < N / 8) (hi : i < L8) (hc : c < 8) (hr : r < 8) :
    prepack N Ldb src init (8 * t * Ldb + (r + 8 * i) * 8 + c) =
      src ((8 * t + c) * Ldb + (r + 8 * i)) := by
  refine applyWrites_of_nodup_mem _ _ _ _ (writeIndices_nodup N Ldb L8 src hL) ?_
  exact prepackEvents_mem_tile N Ldb src t i c r ht (by omega) hc hr

/-- Value of a destination byte written by the nibble-regroup path. -/
theorem prepack_slice_byte (N Ldb L8 : ℕ) (src init : ℕ → ℕ) (hL : Ldb = 8 * L8)
    (t i q : ℕ) (ht : t < N % 8) (hi : i < L8) (hq : q < 8) :
    prepack N Ldb src init ((8 * (N / 8) + t) * Ldb + 8 * i + q) =
      getInt4 (src ((8 * (N / 8) + t) * Ldb + 8 * i + q / 2)) q |||
        getInt4 (src ((8 * (N / 8) + t) * Ldb + 8 * i + (8 + q) / 2)) (q + 8) <<< 4 := by
  refine applyWrites_of_nodup_mem _ _ _ _ (writeIndices_nodup N Ldb L8 src hL) ?_
  exact prepackEvents_mem_slice N Ldb src t i q ht (by omega) hq

/-- Bitwise AND with the mask `2^a * (2^c - 1)` keeps exactly bits `a` to
`a + c - 1`. -/
theorem land_mask_shift (x a c : ℕ) : x &&& 2 ^ a * (2 ^ c - 1) = x / 2 ^ a % 2 ^ c * 2 ^ a := by
  apply Nat.eq_of_testBit_eq
  intro i
  have hm : 2 ^ a * (2 ^ c - 1) = (2 ^ c - 1) <<< a := by rw [Nat.shiftLeft_eq]; ring
  have hr : x / 2 ^ a % 2 ^ c * 2 ^ a = (x >>> a % 2 ^ c) <<< a := by
    rw [Nat.shiftLeft_eq, Nat.shiftRight_eq_div_pow]
  rw [Nat.testBit_land, hm, hr, Nat.testBit_shiftLeft, Nat.testBit_shiftLeft,
    Nat.testBit_two_pow_sub_one, Nat.testBit_mod_two_pow, Nat.testBit_shiftRight]
  by_cases hia : a ≤ i
  · have hai : a + (i - a) = i := by omega
    by_cases hic : i - a < c <;> simp [hia, hai, hic, Bool.and_comm]
  · simp [hia]

theorem and_fifteen (x : ℕ) : x &&& 15 = x % 16 := by
  have h := Nat.and_pow_two_sub_one_eq_mod x 4
  norm_num at h
  exact h

/-- Packing two 4-bit values into a byte: `v0 | (v1 << 4) = 16 * v1 + v0`. -/
theorem lor_shl4_eq (a b : ℕ) (ha : a < 16) : a ||| b <<< 4 = 16 * b + a := by
  apply Nat.eq_of_testBit_eq
  intro i
  have h16 : 16 * b + a = 2 ^ 4 * b + a := by norm_num
  rw [Nat.testBit_lor, Nat.testBit_shiftLeft, h16,
    Nat.testBit_mul_pow_two_add _ (show a < 2 ^ 4 by simpa using ha) i]
  by_cases h : i < 4
  · simp [h, show ¬ 4 ≤ i by omega]
  · have hz : a.testBit i = false := by
      refine Nat.testBit_lt_two_pow (lt_of_lt_of_le ha ?_)
      calc (16 : ℕ) = 2 ^ 4 := by norm_num
      _ ≤ 2 ^ i := Nat.pow_le_pow_right (by norm_num) (by omega)
    simp [h, hz, show 4 ≤ i by omega]

theorem lor_shl4_low (a b : ℕ) (ha : a < 16) : (a ||| b <<< 4) &&& 15 = a := by
  rw [lor_shl4_eq a b ha, and_fifteen]
  omega

theorem lor_shl4_high (a b : ℕ) (ha : a < 16) : (a ||| b <<< 4) >>> 4 = b := by
  rw [lor_shl4_eq a b ha, Nat.shiftRight_eq_div_pow]
  norm_num
  omega

theorem getInt4_lt (v i : ℕ) (hv : v < 256) : getInt4 v i < 16 := by
  unfold getInt4
  split
  · rw [Nat.shiftRight_eq_div_pow]
    omega
  · rw [and_fifteen]
    omega

/-- `GetInt4` only looks at the parity of its index argument. -/
theorem getInt4_parity (v i i' : ℕ) (h : i % 2 = i' % 2) : getInt4 v i = getInt4 v i' := by
  unfold getInt4
  rw [h]

/-- The 64-bit complement mask: for `b ≤ 64`, `~(2^b - 1)` as a `size_t` is
`2^64 - 2^b`, and AND-ing it rounds down to a multiple of `2^b` (for values
below `2^64`). -/
theorem land_complement_mask (x b : ℕ) (hb : b ≤ 64) (hx : x < 2 ^ 64) :
    x &&& (2 ^ 64 - 2 ^ b) = x / 2 ^ b * 2 ^ b := by
  have hmask : 2 ^ 64 - 2 ^ b = 2 ^ b * (2 ^ (64 - b) - 1) := by
    rw [Nat.mul_sub_one]
    rw [← Nat.pow_add]
    congr 2
    omega
  rw [hmask, land_mask_shift]
  have hlt : x / 2 ^ b < 2 ^ (64 - b) := by
    rw [Nat.div_lt_iff_lt_mul (Nat.pos_pow_of_pos b (by norm_num))]
    calc x < 2 ^ 64 := hx
    _ = 2 ^ (64 - b) * 2 ^ b := by rw [← Nat.pow_add]; congr 1; omega
  rw [Nat.mod_eq_of_lt hlt]

/-- For a power-of-two block length, the masked sum inside `ldbImpl` is
exactly `K` rounded up to the next multiple of `2^b`. -/
theorem masked_eq_kpad (K b : ℕ) (hb : b ≤ 64) (hsz : K + 2 ^ b ≤ 2 ^ 64) :
    (K + 2 ^ b - 1) &&& (2 ^ 64 - 2 ^ b) = (K + 2 ^ b - 1) / 2 ^ b * 2 ^ b :=
  land_complement_mask _ b hb (by omega)

/-- `ldbImpl` written with the mask resolved. -/
theorem ldbImpl_pow2 (K b : ℕ) (hb : b ≤ 64) (hsz : K + 2 ^ b ≤ 2 ^ 64) :
    ldbImpl K (2 ^ b) = ((K + 2 ^ b - 1) / 2 ^ b * 2 ^ b * 4 + 7) / 8 := by
  rw [ldbImpl, masked_eq_kpad K b hb hsz]

/-- For `BlkLen = 2^b` with `b ≥ 4` (so `BlkLen ≥ 16`), the column stride is a
positive multiple of 8 (for `K ≥ 1`). -/
theorem ldbImpl_eight_dvd (K b : ℕ) (hK : 1 ≤ K) (hb4 : 4 ≤ b) (hb : b ≤ 64)
    (hsz : K + 2 ^ b ≤ 2 ^ 64) :
    ∃ L8, ldbImpl K (2 ^ b) = 8 * L8 ∧ 0 < L8 := by
  rw [ldbImpl_pow2 K b hb hsz]
  have hq : 1 ≤ (K + 2 ^ b - 1) / 2 ^ b := by
    rw [Nat.le_div_iff_mul_le (Nat.pos_pow_of_pos b (by norm_num))]
    have h1b : (1 : ℕ) ≤ 2 ^ b := Nat.one_le_two_pow
    omega
  have hsplit : 2 ^ b = 16 * 2 ^ (b - 4) := by
    rw [show (16 : ℕ) = 2 ^ 4 by norm_num, ← Nat.pow_add]
    congr 1
    omega
  obtain ⟨q, hqdef⟩ : ∃ q, (K + 2 ^ b - 1) / 2 ^ b = q := ⟨_, rfl⟩
  rw [hqdef] at hq
  refine ⟨q * 2 ^ (b - 4), ?_, ?_⟩
  · rw [hqdef]
    have h64 : q * 2 ^ b * 4 = q * 2 ^ (b - 4) * 64 := by rw [hsplit]; ring
    rw [h64]
    generalize q * 2 ^ (b - 4) = m
    omega
  · have h1b4 : (1 : ℕ) ≤ 2 ^ (b - 4) := Nat.one_le_two_pow
    exact Nat.mul_pos (by omega) (by omega)

/-- C8: for `K ≥ 1` and a power-of-two `BlkLen = 2^b` (with the sizes inside
the 64-bit range the C++ `size_t` arithmetic presupposes), the stride computed
by `(((K + BlkLen - 1) & ~(BlkLen - 1)) * 4 + 7) / 8` equals
`ceil(K_padded * 4 / 8)` for `K_padded` the rounding of `K` up to the next
multiple of `BlkLen`, and the buffer size is exactly `N * Ldb`. -/
theorem c8_ldb_formula (N K b : ℕ) (hK : 1 ≤ K) (hb : b ≤ 64)
    (hsz : K + 2 ^ b ≤ 2 ^ 64) : c8Statement N K b := by
  have hP : 0 < 2 ^ b := Nat.pos_pow_of_pos b (by norm_num)
  have hcomm : 2 ^ b * ((K + 2 ^ b - 1) / 2 ^ b) = (K + 2 ^ b - 1) / 2 ^ b * 2 ^ b :=
    Nat.mul_comm _ _
  have h1 := Nat.div_add_mod (K + 2 ^ b - 1) (2 ^ b)
  have h2 : (K + 2 ^ b - 1) % 2 ^ b < 2 ^ b := Nat.mod_lt _ hP
  rw [c8Statement, bufferSize, ldbImpl_pow2 K b hb hsz, hcomm]
  refine ⟨⟨?_, ?_, Dvd.intro_left _ rfl⟩, rfl, ?_, ?_, rfl⟩ <;>
    · generalize hq : (K + 2 ^ b - 1) / 2 ^ b * 2 ^ b = m
      rw [Nat.mul_comm (2 ^ b) ((K + 2 ^ b - 1) / 2 ^ b), hq] at h1
      omega

/-- Witness for C8 at the test instance `(N, K, BlkLen) = (17, 96, 128)`. -/
theorem c8_ldb_formula_witness :
    (1 ≤ 96 ∧ 7 ≤ 64 ∧ 96 + 2 ^ 7 ≤ 2 ^ 64) ∧ c8Statement 17 96 7 :=
  ⟨⟨by norm_num, by norm_num, by norm_num⟩,
    c8_ldb_formula 17 96 7 (by norm_num) (by norm_num) (by norm_num)⟩

/-- C4: the column loops of `Prepack` split the columns into exactly `N / 8`
transpose tiles followed by exactly `N % 8` regroup columns; every tile's 8
columns are in range, and `8 ∣ N` leaves no regroup column. -/
theorem c4_two_regimes (N Ldb : ℕ) (src : ℕ → ℕ) : c4Statement N Ldb src := by
  refine ⟨prepackEvents_eq N Ldb src, fun t ht => by omega, fun h8 => ?_⟩
  rw [prepackEvents_eq N Ldb src, h8]
  simp

/-- Witness for C4 at `(N, Ldb) = (9, 16)` (the test's `N = 9, K = 31,
BlkLen = 16` shape). -/
theorem c4_two_regimes_witness : c4Statement 9 16 (fun j => (7 * j + 3) % 256) :=
  c4_two_regimes 9 16 (fun j => (7 * j + 3) % 256)

/-- C9: under the preconditions `N ≥ 1`, `K ≥ 1`, `BlkLen = 2^b ≥ 16` (within
`size_t` range), `Prepack` stores to every destination index below `N * Ldb`
exactly once, to no other index, and leaves the rest of the destination
buffer (and, by construction, the source) untouched. -/
theorem c9_write_once (N K b : ℕ) (src init : ℕ → ℕ) (hN : 1 ≤ N) (hK : 1 ≤ K)
    (hb4 : 4 ≤ b) (hb : b ≤ 64) (hsz : K + 2 ^ b ≤ 2 ^ 64) :
    c9Statement N K b src init := by
  obtain ⟨L8, hL, hpos⟩ := ldbImpl_eight_dvd K b hK hb4 hb hsz
  refine ⟨fun x => ?_, fun x hxge => ?_⟩
  · by_cases hx : x < N * ldbImpl K (2 ^ b)
    · rw [if_pos hx]
      exact List.count_eq_one_of_mem (writeIndices_nodup N _ L8 src hL)
        ((mem_writeIndices N _ L8 src hL hpos x).2 hx)
    · rw [if_neg hx]
      exact List.count_eq_zero.2 fun hmem =>
        hx ((mem_writeIndices N _ L8 src hL hpos x).1 hmem)
  · refine applyWrites_of_not_mem _ _ _ fun hmem => ?_
    have := (mem_writeIndices N _ L8 src hL hpos x).1 hmem
    omega

/-- Witness for C9 at the test instance `(N, K, BlkLen) = (9, 31, 16)`. -/
theorem c9_write_once_witness :
    (1 ≤ 9 ∧ 1 ≤ 31 ∧ 4 ≤ 4 ∧ 4 ≤ 64 ∧ 31 + 2 ^ 4 ≤ 2 ^ 64) ∧
      c9Statement 9 31 4 (fun j => (7 * j + 3) % 256) (fun _ => 0) :=
  ⟨⟨by norm_num, by norm_num, by norm_num, by norm_num, by norm_num⟩,
    c9_write_once 9 31 4 _ _ (by norm_num) (by norm_num) (by norm_num) (by norm_num)
      (by norm_num)⟩

/-- C10: with `BlkLen = 2^b ≥ 16` the stride is a multiple of 8, the chunk
loops have no partial final chunk, all stores land below `N * Ldb`, transpose
loads stay inside the buffer, and regroup loads stay inside the current
column. -/
theorem c10_stride_and_bounds (N K b : ℕ) (src : ℕ → ℕ) (hK : 1 ≤ K) (hb4 : 4 ≤ b)
    (hb : b ≤ 64) (hsz : K + 2 ^ b ≤ 2 ^ 64) : c10Statement N K b src := by
  obtain ⟨L8, hL, hpos⟩ := ldbImpl_eight_dvd K b hK hb4 hb hsz
  rw [c10Statement]
  refine ⟨by omega, by omega, ?_, ?_, ?_⟩
  · intro x hx
    exact (mem_writeIndices N _ L8 src hL hpos x).1 hx
  · intro t ht i hi x hx
    rcases mem_range_flatMap.1 hx with ⟨c, hc, hx⟩
    rcases List.mem_map.1 hx with ⟨r, hr, hxeq⟩
    have hr8 := List.mem_range.1 hr
    subst hxeq
    try dsimp only
    have hoff : r + 8 * i < ldbImpl K (2 ^ b) := by omega
    have hcol : 8 * t + c + 1 ≤ N := by omega
    calc (8 * t + c) * ldbImpl K (2 ^ b) + (r + 8 * i)
        < (8 * t + c) * ldbImpl K (2 ^ b) + ldbImpl K (2 ^ b) := Nat.add_lt_add_left hoff _
      _ = (8 * t + c + 1) * ldbImpl K (2 ^ b) := by ring
      _ ≤ N * ldbImpl K (2 ^ b) := Nat.mul_le_mul_right _ hcol
  · intro n hn1 hn2 i hi x hx
    rcases mem_range_flatMap.1 hx with ⟨q, hq, hx⟩
    have hoff1 : 8 * i + q / 2 < ldbImpl K (2 ^ b) := by omega
    have hoff2 : 8 * i + (8 + q) / 2 < ldbImpl K (2 ^ b) := by omega
    have he : (n + 1) * ldbImpl K (2 ^ b) = n * ldbImpl K (2 ^ b) + ldbImpl K (2 ^ b) := by
      ring
    rcases List.mem_cons.1 hx with h | hx
    · subst h
      constructor
      · omega
      · rw [he]
        have := Nat.add_lt_add_left hoff1 (n * ldbImpl K (2 ^ b))
        omega
    rcases List.mem_cons.1 hx with h | hx
    · subst h
      constructor
      · omega
      · rw [he]
        have := Nat.add_lt_add_left hoff2 (n * ldbImpl K (2 ^ b))
        omega
    · simp at hx

/-- Witness for C10 at the test instance `(N, K, BlkLen) = (17, 67, 16)`. -/
theorem c10_stride_and_bounds_witness :
    (1 ≤ 67 ∧ 4 ≤ 4 ∧ 4 ≤ 64 ∧ 67 + 2 ^ 4 ≤ 2 ^ 64) ∧
      c10Statement 17 67 4 (fun j => (7 * j + 3) % 256) :=
  ⟨⟨by norm_num, by norm_num, by norm_num, by norm_num⟩,
    c10_stride_and_bounds 17 67 4 _ (by norm_num) (by norm_num) (by norm_num) (by norm_num)⟩

/-- C2 fails as stated: at `N = 9`, `K = 16`, `BlkLen = 16` (`Ldb = 8`),
source byte `j` holding value `j`, the claimed identity at `n = 1`,
`k = r = c = 0` would require `dst[8] = src[8] = 8`, but the packer put
`src[1] = 1` there (byte 8 belongs to tile 0 of the transpose layout, not to a
tile starting at column 1). -/
theorem c2_counterexample :
    ¬ c2Statement 9 (ldbImpl 16 16) (fun j => j) (fun _ => 0) := by
  intro h
  have h1 := h 1 0 0 0 (by decide) (by decide) (by decide) (by decide) (by decide)
  revert h1
  decide

/-- C2 amended: the transpose identity holds for every tile-aligned group
start `n` (a multiple of 8) with `n + 8 ≤ N`, every 8-aligned chunk offset
`k < Ldb`, when the stride `Ldb` is a multiple of 8 (as the test's
`BlkLen ≥ 16` guarantees). -/
theorem c2_amended (N Ldb L8 : ℕ) (src init : ℕ → ℕ) (hL : Ldb = 8 * L8) :
    ∀ n k r c, n % 8 = 0 → n + 8 ≤ N → k % 8 = 0 → k < Ldb → r < 8 → c < 8 →
      prepack N Ldb src init (n * Ldb + (r + k) * 8 + c) = src ((n + c) * Ldb + (r + k)) := by
  intro n k r c hn8 hnN hk8 hkL hr hc
  have hn : n = 8 * (n / 8) := by omega
  have hk : k = 8 * (k / 8) := by omega
  rw [hn, hk]
  exact prepack_tile_byte N Ldb L8 src init hL (n / 8) (k / 8) c r
    (by omega) (by omega) hc hr

/-- Witness for C2 (amended) at `N = 9`, `Ldb = 16`, `n = 0`, `k = 8`,
`r = 3`, `c = 5`. -/
theorem c2_amended_witness :
    (16 = 8 * 2 ∧ (0 : ℕ) % 8 = 0 ∧ 0 + 8 ≤ 9 ∧ (8 : ℕ) % 8 = 0 ∧ 8 < 16 ∧ 3 < 8 ∧ 5 < 8) ∧
      prepack 9 16 (fun j => (7 * j + 3) % 256) (fun _ => 0) (0 * 16 + (3 + 8) * 8 + 5) =
        (fun j => (7 * j + 3) % 256) ((0 + 5) * 16 + (3 + 8)) :=
  ⟨⟨by norm_num, by norm_num, by norm_num, by norm_num, by norm_num, by norm_num, by norm_num⟩,
    c2_amended 9 16 2 _ _ (by norm_num) 0 8 3 5 (by norm_num) (by norm_num) (by norm_num)
      (by norm_num) (by norm_num) (by norm_num)⟩

/-- C3: every tail column chunk is the nibble-level regroup: output byte `i`
of the chunk holds element `i` of the 16-element group in its low nibble and
element `i + 8` in its high nibble (`Ldb` a multiple of 8 as guaranteed by the
test's `BlkLen ≥ 16`; source bytes are 8-bit values). -/
theorem c3_tail_regroup (N Ldb L8 : ℕ) (src init : ℕ → ℕ) (hL : Ldb = 8 * L8)
    (hsrc : ∀ j, src j < 256) : c3Statement N Ldb src init := by
  intro col hcol1 hcol2 g hg i hi
  have hcol : 8 * (N / 8) + (col - 8 * (N / 8)) = col := by omega
  have ht : col - 8 * (N / 8) < N % 8 := by omega
  have hb := prepack_slice_byte N Ldb L8 src init hL (col - 8 * (N / 8)) g i ht (by omega) hi
  rw [hcol] at hb
  have hv0 : getInt4 (src (col * Ldb + 8 * g + i / 2)) i < 16 := getInt4_lt _ _ (hsrc _)
  have hv1 : getInt4 (src (col * Ldb + 8 * g + (8 + i) / 2)) (i + 8) < 16 :=
    getInt4_lt _ _ (hsrc _)
  rw [hb, lor_shl4_eq _ _ hv0]
  constructor
  · have hlow : (16 * getInt4 (src (col * Ldb + 8 * g + (8 + i) / 2)) (i + 8) +
        getInt4 (src (col * Ldb + 8 * g + i / 2)) i) % 16 =
        getInt4 (src (col * Ldb + 8 * g + i / 2)) i := by omega
    rw [hlow, recoverSrc]
    have haddr : col * Ldb + 8 * g + i / 2 = col * Ldb + (16 * g + i) / 2 := by omega
    rw [haddr]
    exact getInt4_parity _ _ _ (by omega)
  · have hhigh : (16 * getInt4 (src (col * Ldb + 8 * g + (8 + i) / 2)) (i + 8) +
        getInt4 (src (col * Ldb + 8 * g + i / 2)) i) / 16 =
        getInt4 (src (col * Ldb + 8 * g + (8 + i) / 2)) (i + 8) := by omega
    rw [hhigh, recoverSrc]
    have haddr : col * Ldb + 8 * g + (8 + i) / 2 = col * Ldb + (16 * g + i + 8) / 2 := by
      omega
    rw [haddr]
    exact getInt4_parity _ _ _ (by omega)

/-- Witness for C3 at `N = 9`, `Ldb = 16`, tail column 8, chunk 1, byte 6. -/
theorem c3_tail_regroup_witness :
    (16 = 8 * 2 ∧ (∀ j, (7 * j + 3) % 256 < 256) ∧ 8 * (9 / 8) ≤ 8 ∧ 8 < 9 ∧
        8 * 1 < 16 ∧ 6 < 8) ∧
      (prepack 9 16 (fun j => (7 * j + 3) % 256) (fun _ => 0) (8 * 16 + 8 * 1 + 6) % 16 =
          recoverSrc (fun j => (7 * j + 3) % 256) 16 8 (16 * 1 + 6) ∧
        prepack 9 16 (fun j => (7 * j + 3) % 256) (fun _ => 0) (8 * 16 + 8 * 1 + 6) / 16 =
          recoverSrc (fun j => (7 * j + 3) % 256) 16 8 (16 * 1 + 6 + 8)) :=
  ⟨⟨by norm_num, fun j => Nat.mod_lt _ (by norm_num), by norm_num, by norm_num, by norm_num,
      by norm_num⟩,
    c3_tail_regroup 9 16 2 _ _ (by norm_num) (fun j => Nat.mod_lt _ (by norm_num)) 8
      (by norm_num) (by norm_num) 1 (by norm_num) 6 (by norm_num)⟩

/-- C1 fails as stated for every power-of-two `BlkLen`: at `N = 8`, `K = 8`,
`BlkLen = 8` (a power of two, but `< 16`), `Ldb = 4` and the transpose path
stores to destination index 63, far beyond the `N * Ldb = 32`-byte buffer, so
the packed output is not confined to a buffer of the source's size. -/
theorem c1_counterexample :
    ¬ c1Statement 8 8 8 (fun j => j % 256) (fun _ => 0) := by
  intro h
  have h63 := h.1 63 (by decide)
  revert h63
  decide

/-- C1 amended: for `BlkLen = 2^b` with `b ≥ 4` (`BlkLen ≥ 16`, as in all the
test instances), all stores stay below `N * Ldb` and the nibble mapping
recovered from the packed buffer agrees pointwise (hence as a multiset of
key-value pairs) with the source's. -/
theorem c1_amended (N K b : ℕ) (src init : ℕ → ℕ) (hK : 1 ≤ K) (hb4 : 4 ≤ b)
    (hb : b ≤ 64) (hsz : K + 2 ^ b ≤ 2 ^ 64) (hsrc : ∀ j, src j < 256) :
    c1Statement N K (2 ^ b) src init := by
  obtain ⟨L8, hL, hpos⟩ := ldbImpl_eight_dvd K b hK hb4 hb hsz
  constructor
  · intro x hx
    exact (mem_writeIndices N _ L8 src hL hpos x).1 hx
  · intro col kidx hcol hkidx
    rw [recoverPacked, recoverSrc]
    by_cases hc : col < 8 * (N / 8)
    · rw [if_pos hc]
      have hbyte := prepack_tile_byte N _ L8 src init hL (col / 8) (kidx / 2 / 8) (col % 8)
        (kidx / 2 % 8) (by omega) (by omega) (by omega) (by omega)
      have hri : kidx / 2 % 8 + 8 * (kidx / 2 / 8) = kidx / 2 := by omega
      have hcol8 : 8 * (col / 8) + col % 8 = col := by omega
      rw [hri, hcol8] at hbyte
      rw [hbyte]
    · rw [if_neg hc]
      have ht : col - 8 * (N / 8) < N % 8 := by omega
      have hcoleq : 8 * (N / 8) + (col - 8 * (N / 8)) = col := by omega
      by_cases hq : kidx % 16 < 8
      · rw [if_pos hq]
        have hbyte := prepack_slice_byte N _ L8 src init hL (col - 8 * (N / 8)) (kidx / 16)
          (kidx % 16) ht (by omega) hq
        rw [hcoleq] at hbyte
        rw [hbyte]
        have hv0 :
            getInt4 (src (col * ldbImpl K (2 ^ b) + 8 * (kidx / 16) + kidx % 16 / 2))
              (kidx % 16) < 16 := getInt4_lt _ _ (hsrc _)
        have hg0 : ∀ X : ℕ, getInt4 X 0 = X &&& 15 := fun X => by unfold getInt4; norm_num
        rw [hg0, lor_shl4_low _ _ hv0]
        have haddr : col * ldbImpl K (2 ^ b) + 8 * (kidx / 16) + kidx % 16 / 2 =
            col * ldbImpl K (2 ^ b) + kidx / 2 := by omega
        rw [haddr]
        exact getInt4_parity _ _ _ (by omega)
      · rw [if_neg hq]
        have hbyte := prepack_slice_byte N _ L8 src init hL (col - 8 * (N / 8)) (kidx / 16)
          (kidx % 16 - 8) ht (by omega) (by omega)
        rw [hcoleq] at hbyte
        rw [hbyte]
        have hv0 :
            getInt4 (src (col * ldbImpl K (2 ^ b) + 8 * (kidx / 16) + (kidx % 16 - 8) / 2))
              (kidx % 16 - 8) < 16 := getInt4_lt _ _ (hsrc _)
        have hg1 : ∀ X : ℕ, getInt4 X 1 = X >>> 4 := fun X => by unfold getInt4; norm_num
        rw [hg1, lor_shl4_high _ _ hv0]
        have haddr : col * ldbImpl K (2 ^ b) + 8 * (kidx / 16) + (8 + (kidx % 16 - 8)) / 2 =
            col * ldbImpl K (2 ^ b) + kidx / 2 := by omega
        rw [haddr]
        exact getInt4_parity _ _ _ (by omega)

/-- Witness for C1 (amended) at the test instance `(N, K, BlkLen) = (9, 31, 16)`. -/
theorem c1_amended_witness :
    (1 ≤ 31 ∧ 4 ≤ 4 ∧ 4 ≤ 64 ∧ 31 + 2 ^ 4 ≤ 2 ^ 64 ∧
        (∀ j : ℕ, (7 * j + 3) % 256 < 256)) ∧
      c1Statement 9 31 (2 ^ 4) (fun j => (7 * j + 3) % 256) (fun _ => 0) :=
  ⟨⟨by norm_num, by norm_num, by norm_num, by norm_num,
      fun j => Nat.mod_lt _ (by norm_num)⟩,
    c1_amended 9 31 4 _ _ (by norm_num) (by norm_num) (by norm_num) (by norm_num)
      (fun j => Nat.mod_lt _ (by norm_num))⟩

end SQNBit

namespace FpCast

theorem normLoop_spec :
    ∀ fuel m, 1 ≤ m → m < 2048 → 1024 ≤ 2 ^ fuel * m →
      (normLoop fuel m).1 = m * 2 ^ (normLoop fuel m).2 ∧
        1024 ≤ (normLoop fuel m).1 ∧ (normLoop fuel m).1 < 2048 := by
  intro fuel
  induction fuel with
  | zero =>
    intro m h1 h2 h3
    rw [normLoop]
    refine ⟨by simp, by simpa using h3, h2⟩
  | succ f ih =>
    intro m h1 h2 h3
    rw [normLoop]
    split
    · next hm =>
      have hrec := ih (2 * m) (by omega) (by omega)
        (by
          have : 2 ^ f * (2 * m) = 2 ^ (f + 1) * m := by ring
          omega)
      refine ⟨?_, hrec.2.1, hrec.2.2⟩
      rw [hrec.1]
      ring
    · next hm =>
      refine ⟨by simp, by omega, h2⟩

/-- Field extraction for a 32-bit pattern assembled from sign, exponent and
mantissa. -/
theorem f32_fields (s e m : ℕ) (hs : s < 2) (he : e < 256) (hm : m < 2 ^ 23) :
    (s * 2 ^ 31 + e * 2 ^ 23 + m) / 2 ^ 31 % 2 = s ∧
      (s * 2 ^ 31 + e * 2 ^ 23 + m) / 2 ^ 23 % 256 = e ∧
      (s * 2 ^ 31 + e * 2 ^ 23 + m) % 2 ^ 23 = m ∧
      s * 2 ^ 31 + e * 2 ^ 23 + m < 2 ^ 32 := by
  omega

/-- A finite fp16 pattern (in the sense of the test's `0x7C00` mask) has
exponent field below 31. -/
theorem f16_exp_ne (p : ℕ) (h : p &&& 31744 ≠ 31744) : p / 2 ^ 10 % 32 ≠ 31 := by
  intro he
  apply h
  have hm : (31744 : ℕ) = 2 ^ 10 * (2 ^ 5 - 1) := by norm_num
  rw [hm, SQNBit.land_mask_shift]
  omega

/-- Magnitude of an assembled normal fp32 pattern. -/
theorem f32Mag_of_fields (s e m : ℕ) (hs : s < 2) (he1 : 1 ≤ e) (he : e < 256)
    (hm : m < 2 ^ 23) :
    f32Mag (s * 2 ^ 31 + e * 2 ^ 23 + m) = (2 ^ 23 + m) * 2 ^ e := by
  obtain ⟨hfs, hfe, hfm, _⟩ := f32_fields s e m hs he hm
  have he0 : ¬ e = 0 := by omega
  rw [f32Mag, hfe, hfm, if_neg he0]

/-- Value of an assembled normal fp32 pattern. -/
theorem f32Val_of_fields (s e m : ℕ) (hs : s < 2) (he1 : 1 ≤ e) (he : e < 256)
    (hm : m < 2 ^ 23) :
    f32Val (s * 2 ^ 31 + e * 2 ^ 23 + m) =
      (if s = 1 then -1 else 1) * (((2 ^ 23 + m) * 2 ^ e : ℕ) : ℤ) := by
  obtain ⟨hfs, hfe, hfm, _⟩ := f32_fields s e m hs he hm
  rw [f32Val, hfs, f32Mag_of_fields s e m hs he1 he hm]

/-- A bare sign bit denotes (plus or minus) zero. -/
theorem f32Val_sign_zero (s : ℕ) (hs : s < 2) : f32Val (s * 2 ^ 31) = 0 := by
  have h1 : s * 2 ^ 31 / 2 ^ 23 % 256 = 0 := by omega
  have h2 : s * 2 ^ 31 % 2 ^ 23 = 0 := by omega
  rw [f32Val, f32Mag, h1, h2]
  simp

/-- C5: widening any fp16 pattern whose exponent field is not all-ones yields
the exact same real value, as a finite 32-bit pattern. -/
theorem c5_widen_exact (p : ℕ) (hp : p < 2 ^ 16) (hfin : p &&& 31744 ≠ 31744) :
    c5Statement p := by
  have he31 : p / 2 ^ 10 % 32 ≠ 31 := f16_exp_ne p hfin
  have hs2 : p / 2 ^ 15 % 2 < 2 := Nat.mod_lt _ (by norm_num)
  rw [c5Statement, widen1]
  dsimp only
  by_cases he : p / 2 ^ 10 % 32 = 0
  · rw [if_pos he]
    by_cases hm : p % 2 ^ 10 = 0
    · rw [if_pos hm]
      refine ⟨?_, by omega, by omega⟩
      rw [f32Val_sign_zero _ hs2, f16Val, f16Mag, if_pos he, hm]
      simp
    · rw [if_neg hm]
      obtain ⟨hn1, hn2, hn3⟩ := normLoop_spec 10 (p % 2 ^ 10) (by omega) (by omega) (by omega)
      obtain ⟨m1, d, hmd⟩ : ∃ m1 d, normLoop 10 (p % 2 ^ 10) = (m1, d) :=
        ⟨_, _, rfl⟩
      rw [hmd] at hn1 hn2 hn3 ⊢
      dsimp only at hn1 hn2 hn3 ⊢
      have hd : d < 11 := by
        by_contra hcon
        have h11 : (2 : ℕ) ^ 11 ≤ 2 ^ d := Nat.pow_le_pow_right (by norm_num) (by omega)
        have : 2 ^ d ≤ p % 2 ^ 10 * 2 ^ d := Nat.le_mul_of_pos_left _ (by omega)
        omega
      have hd2 : (2 : ℕ) ^ d ≤ 2 ^ 10 := Nat.pow_le_pow_right (by norm_num) (by omega)
      obtain ⟨hfs, hfe, hfm, hfsz⟩ := f32_fields (p / 2 ^ 15 % 2) (113 - d)
        ((m1 - 2 ^ 10) * 2 ^ 13) hs2 (by omega) (by omega)
      refine ⟨?_, by rw [hfe]; omega, hfsz⟩
      have hmag : (2 ^ 23 + (m1 - 2 ^ 10) * 2 ^ 13) * 2 ^ (113 - d) =
          p % 2 ^ 10 * 2 ^ 126 := by
        have h1 : 2 ^ 23 + (m1 - 2 ^ 10) * 2 ^ 13 = m1 * 2 ^ 13 := by omega
        rw [h1, hn1]
        have h2 : p % 2 ^ 10 * 2 ^ d * 2 ^ 13 * 2 ^ (113 - d) =
            p % 2 ^ 10 * (2 ^ d * (2 ^ 13 * 2 ^ (113 - d))) := by ring
        rw [h2, ← pow_add, ← pow_add]
        have h3 : d + (13 + (113 - d)) = 126 := by omega
        rw [h3]
      rw [f32Val_of_fields _ _ _ hs2 (by omega) (by omega) (by omega), hmag,
        f16Val, f16Mag, if_pos he]
  · rw [if_neg he, if_neg he31]
    obtain ⟨hfs, hfe, hfm, hfsz⟩ := f32_fields (p / 2 ^ 15 % 2) (p / 2 ^ 10 % 32 + 112)
      (p % 2 ^ 10 * 2 ^ 13) hs2 (by omega) (by omega)
    refine ⟨?_, by rw [hfe]; omega, hfsz⟩
    have hmag : (2 ^ 23 + p % 2 ^ 10 * 2 ^ 13) * 2 ^ (p / 2 ^ 10 % 32 + 112) =
        (2 ^ 10 + p % 2 ^ 10) * 2 ^ (p / 2 ^ 10 % 32 + 125) := by
      have h1 : 2 ^ 23 + p % 2 ^ 10 * 2 ^ 13 = (2 ^ 10 + p % 2 ^ 10) * 2 ^ 13 := by omega
      rw [h1]
      have h2 : (2 ^ 10 + p % 2 ^ 10) * 2 ^ 13 * 2 ^ (p / 2 ^ 10 % 32 + 112) =
          (2 ^ 10 + p % 2 ^ 10) * (2 ^ 13 * 2 ^ (p / 2 ^ 10 % 32 + 112)) := by ring
      rw [h2, ← pow_add]
      have h3 : 13 + (p / 2 ^ 10 % 32 + 112) = p / 2 ^ 10 % 32 + 125 := by omega
      rw [h3]
    rw [f32Val_of_fields _ _ _ hs2 (by omega) (by omega) (by omega), hmag,
      f16Val, f16Mag, if_neg he]

/-- Witness for C5 at `p = 0x8001` (a negative subnormal). -/
theorem c5_widen_exact_witness :
    (32769 < 2 ^ 16 ∧ 32769 &&& 31744 ≠ 31744) ∧ c5Statement 32769 :=
  ⟨⟨by norm_num, by decide⟩, c5_widen_exact 32769 (by norm_num) (by decide)⟩

theorem castF16toF32_eq_map :
    ∀ count src, castF16toF32 src count = (src.take count).map widen1 := by
  intro count
  induction count using Nat.strong_induction_on with
  | _ count ih =>
    intro src
    rw [castF16toF32]
    split
    · next h =>
      rw [ih (count - 4) (by omega) (src.drop 4), ← List.map_append, ← List.take_add]
      have : 4 + (count - 4) = count := by omega
      rw [this]
    · rfl

theorem castF32toF16_eq_map :
    ∀ count src, castF32toF16 src count = (src.take count).map narrow1 := by
  intro count
  induction count using Nat.strong_induction_on with
  | _ count ih =>
    intro src
    rw [castF32toF16]
    split
    · next h =>
      rw [ih (count - 4) (by omega) (src.drop 4), ← List.map_append, ← List.take_add]
      have : 4 + (count - 4) = count := by omega
      rw [this]
    · rfl

/-- C7: for every count (also below or not a multiple of the vector width),
both buffer casts produce exactly `count` outputs, each equal to the scalar
conversion of the corresponding input. -/
theorem c7_counts_elementwise (src16 src32 : List ℕ) (count : ℕ)
    (h16 : count ≤ src16.length) (h32 : count ≤ src32.length) :
    c7Statement src16 src32 count := by
  refine ⟨⟨?_, castF16toF32_eq_map count src16⟩, ?_, castF32toF16_eq_map count src32⟩
  · rw [castF16toF32_eq_map count src16, List.length_map, List.length_take]
    omega
  · rw [castF32toF16_eq_map count src32, List.length_map, List.length_take]
    omega

/-- Witness for C7 at `count = 3` on 4-element buffers. -/
theorem c7_counts_elementwise_witness :
    (3 ≤ [1, 2, 3, 4].length ∧ 3 ≤ [5, 6, 7, 8].length) ∧
      c7Statement [1, 2, 3, 4] [5, 6, 7, 8] 3 :=
  ⟨⟨by norm_num, by norm_num⟩,
    c7_counts_elementwise [1, 2, 3, 4] [5, 6, 7, 8] 3 (by norm_num) (by norm_num)⟩

/-- The add-and-shift formula rounds to the nearest multiple, ties to even:
`rne a k` is within half a unit of `a / 2^k`, strictly unless the result is
even. -/
theorem rne_spec (a k : ℕ) (hk : 1 ≤ k) :
    a / 2 ^ k ≤ rne a k ∧ rne a k ≤ a / 2 ^ k + 1 ∧
      (2 * ndist a (rne a k * 2 ^ k) < 2 ^ k ∨
        (2 * ndist a (rne a k * 2 ^ k) = 2 ^ k ∧ rne a k % 2 = 0)) := by
  have hP : 0 < 2 ^ k := Nat.pos_pow_of_pos k (by norm_num)
  have hH : 0 < 2 ^ (k - 1) := Nat.pos_pow_of_pos _ (by norm_num)
  have hPH : (2 : ℕ) ^ k = 2 * 2 ^ (k - 1) := by
    cases k with
    | zero => omega
    | succ k' => rw [Nat.succ_sub_one, pow_succ']
  have hdm := Nat.div_add_mod a (2 ^ k)
  have hrem : a % 2 ^ k < 2 ^ k := Nat.mod_lt _ hP
  have hu2 : a / 2 ^ k % 2 < 2 := Nat.mod_lt _ (by norm_num)
  have hw : a + 2 ^ (k - 1) - 1 + a / 2 ^ k % 2 =
      2 ^ k * (a / 2 ^ k) + (a % 2 ^ k + 2 ^ (k - 1) - 1 + a / 2 ^ k % 2) := by omega
  rw [rne, hw, Nat.mul_add_div hP]
  rcases Nat.lt_or_ge (a % 2 ^ k + 2 ^ (k - 1) - 1 + a / 2 ^ k % 2) (2 ^ k) with hlt | hge
  · rw [Nat.div_eq_of_lt hlt]
    have hc : (a / 2 ^ k + 0) * 2 ^ k = 2 ^ k * (a / 2 ^ k) := by ring
    simp only [ndist, hc]
    omega
  · have hdiv : (a % 2 ^ k + 2 ^ (k - 1) - 1 + a / 2 ^ k % 2) / 2 ^ k = 1 :=
      Nat.div_eq_of_lt_le (by omega) (by omega)
    rw [hdiv]
    have hc : (a / 2 ^ k + 1) * 2 ^ k = 2 ^ k * (a / 2 ^ k) + 2 ^ k := by ring
    simp only [ndist, hc]
    omega

theorem val16grid_zero : val16grid 0 = 0 := by
  rw [val16grid]
  norm_num

theorem val16grid_le_1024 (v : ℕ) (hv : v ≤ 1024) : val16grid v = v * 2 ^ 126 := by
  rw [val16grid]
  rcases Nat.lt_or_ge v 1024 with h | h
  · rw [if_pos h]
  · have hv1024 : v = 1024 := by omega
    subst hv1024
    norm_num

theorem val16grid_top : val16grid 31744 = 2 ^ 166 := by
  rw [val16grid]
  norm_num

/-- Grid value of a normal-range index written as binade plus offset: for
`113 ≤ e' ≤ 142` and `1024 ≤ v ≤ 2048`,
`val16grid ((e' - 113) * 1024 + v) = v * 2^(e' + 13)`. -/
theorem val16grid_normal (e' v : ℕ) (he1 : 113 ≤ e') (he2 : e' ≤ 142) (hv1 : 1024 ≤ v)
    (hv2 : v ≤ 2048) : val16grid ((e' - 113) * 1024 + v) = v * 2 ^ (e' + 13) := by
  rw [val16grid]
  have hidx : ¬ (e' - 113) * 1024 + v < 1024 := by omega
  rw [if_neg hidx]
  rcases Nat.lt_or_ge v 2048 with h | h
  · have h1 : ((e' - 113) * 1024 + v) / 2 ^ 10 = e' - 112 := by omega
    have h2 : ((e' - 113) * 1024 + v) % 2 ^ 10 = v - 1024 := by omega
    rw [h1, h2]
    have h3 : 2 ^ 10 + (v - 1024) = v := by omega
    have h4 : e' - 112 + 125 = e' + 13 := by omega
    rw [h3, h4]
  · have hv2048 : v = 2048 := by omega
    subst hv2048
    have h1 : ((e' - 113) * 1024 + 2048) / 2 ^ 10 = e' - 111 := by omega
    have h2 : ((e' - 113) * 1024 + 2048) % 2 ^ 10 = 0 := by omega
    rw [h1, h2]
    have h3 : e' - 111 + 125 = e' + 13 + 1 := by omega
    rw [h3, pow_succ]
    ring

theorem gap16_le_1024 (v : ℕ) (hv : v ≤ 1024) : gap16 v = 2 ^ 126 := by
  rw [gap16]
  rcases Nat.lt_or_ge v 1024 with h | h
  · rw [if_pos h]
  · have hv1024 : v = 1024 := by omega
    subst hv1024
    norm_num

theorem gap16_normal (e' v : ℕ) (he1 : 113 ≤ e') (he2 : e' ≤ 142) (hv1 : 1024 ≤ v)
    (hv2 : v ≤ 2047) : gap16 ((e' - 113) * 1024 + v) = 2 ^ (e' + 13) := by
  rw [gap16]
  have hidx : ¬ (e' - 113) * 1024 + v < 1024 := by omega
  rw [if_neg hidx]
  have h1 : ((e' - 113) * 1024 + v) / 2 ^ 10 = e' - 112 := by omega
  have h4 : e' - 112 + 125 = e' + 13 := by omega
  rw [h1, h4]

theorem gap16_pos (i : ℕ) : 0 < gap16 i := by
  rw [gap16]
  split <;> exact Nat.pos_pow_of_pos _ (by norm_num)

/-- Adjacent grid points differ by exactly the binade gap. -/
theorem val16grid_succ (i : ℕ) : val16grid (i + 1) = val16grid i + gap16 i := by
  rcases Nat.lt_or_ge i 1023 with h | h
  · rw [val16grid, val16grid, gap16, if_pos (by omega), if_pos (by omega), if_pos (by omega)]
    ring
  rcases Nat.lt_or_ge i 1024 with h2 | h2
  · have hi : i = 1023 := by omega
    subst hi
    rw [val16grid, val16grid, gap16]
    norm_num
  rcases Nat.lt_or_ge (i % 1024) 1023 with h3 | h3
  · rw [val16grid, val16grid, gap16, if_neg (by omega), if_neg (by omega), if_neg (by omega)]
    have e1 : (i + 1) / 2 ^ 10 = i / 2 ^ 10 := by omega
    have e2 : (i + 1) % 2 ^ 10 = i % 2 ^ 10 + 1 := by omega
    rw [e1, e2]
    ring
  · rw [val16grid, val16grid, gap16, if_neg (by omega), if_neg (by omega), if_neg (by omega)]
    have e1 : (i + 1) / 2 ^ 10 = i / 2 ^ 10 + 1 := by omega
    have e2 : (i + 1) % 2 ^ 10 = 0 := by omega
    have e3 : i % 2 ^ 10 = 1023 := by omega
    rw [e1, e2, e3]
    have e4 : i / 2 ^ 10 + 1 + 125 = i / 2 ^ 10 + 125 + 1 := by omega
    rw [e4, pow_succ]
    ring

theorem val16grid_lt_of_lt (i j : ℕ) (h : i < j) : val16grid i < val16grid j := by
  induction j with
  | zero => omega
  | succ j' ih =>
    have hs := val16grid_succ j'
    have hg := gap16_pos j'
    rcases Nat.lt_or_ge i j' with h' | h'
    · have := ih h'
      omega
    · have hij : i = j' := by omega
      subst hij
      omega

theorem val16grid_le_of_le (i j : ℕ) (h : i ≤ j) : val16grid i ≤ val16grid j := by
  rcases Nat.lt_or_ge i j with h' | h'
  · exact le_of_lt (val16grid_lt_of_lt i j h')
  · have hij : i = j := by omega
    subst hij
    exact le_refl _

/-- Local half-gap conditions around `r` imply that `r` is the nearest-even
grid index to `t`. -/
theorem isNearestEven_of_local (t r : ℕ) (hr : r ≤ 31744)
    (hA : r < 31744 → val16grid r ≤ t →
      2 * (t - val16grid r) < gap16 r ∨
        (2 * (t - val16grid r) = gap16 r ∧ r % 2 = 0))
    (hB : t < val16grid r →
      2 * (val16grid r - t) < gap16 (r - 1) ∨
        (2 * (val16grid r - t) = gap16 (r - 1) ∧ r % 2 = 0)) :
    IsNearestEven t r := by
  refine ⟨hr, fun j hj hne => ?_⟩
  rcases Nat.lt_or_ge r j with hjr | hjr
  · have hrM : r < 31744 := by omega
    have hsucc : val16grid (r + 1) = val16grid r + gap16 r := val16grid_succ r
    have hmono : val16grid (r + 1) ≤ val16grid j := val16grid_le_of_le _ _ (by omega)
    rcases Nat.lt_or_ge t (val16grid r) with ht | ht
    · have h1 : val16grid r < val16grid j := val16grid_lt_of_lt _ _ hjr
      left
      simp only [ndist]
      omega
    · have hAr := hA hrM ht
      rcases Nat.lt_or_ge (r + 1) j with hj2 | hj2
      · have h2 : val16grid (r + 1) < val16grid j := val16grid_lt_of_lt _ _ hj2
        left
        simp only [ndist]
        omega
      · have hj1 : j = r + 1 := by omega
        subst hj1
        simp only [ndist]
        omega
  · have hjr2 : j < r := by omega
    rcases Nat.lt_or_ge t (val16grid r) with ht | ht
    · have hr1 : 1 ≤ r := by
        by_contra h0
        have hr0 : r = 0 := by omega
        subst hr0
        rw [val16grid_zero] at ht
        omega
      have hBr := hB ht
      have hsucc : val16grid (r - 1 + 1) = val16grid (r - 1) + gap16 (r - 1) :=
        val16grid_succ _
      have hr1e : r - 1 + 1 = r := by omega
      rw [hr1e] at hsucc
      rcases Nat.lt_or_ge j (r - 1) with hj2 | hj2
      · have h2 : val16grid j < val16grid (r - 1) := val16grid_lt_of_lt _ _ hj2
        left
        simp only [ndist]
        omega
      · have hj1 : j = r - 1 := by omega
        subst hj1
        simp only [ndist]
        omega
    · have h1 : val16grid j < val16grid r := val16grid_lt_of_lt _ _ hjr2
      left
      simp only [ndist]
      omega

theorem isNearestEven_unique_aux (t i j : ℕ) (hlt : i < j) (hi : IsNearestEven t i)
    (hj : IsNearestEven t j) : False := by
  obtain ⟨hiM, hip⟩ := hi
  obtain ⟨hjM, hjp⟩ := hj
  have h1 := hip j hjM (by omega)
  have h2 := hjp i hiM (by omega)
  have hvij : val16grid i < val16grid j := val16grid_lt_of_lt _ _ hlt
  rcases Nat.lt_or_ge (i + 1) j with hmid | hmid
  · have h3 := hip (i + 1) (by omega) (by omega)
    have hs := val16grid_succ i
    have hg := gap16_pos i
    have hm2 : val16grid (i + 1) < val16grid j := val16grid_lt_of_lt _ _ hmid
    simp only [ndist] at h1 h2 h3
    omega
  · have hj1 : j = i + 1 := by omega
    subst hj1
    simp only [ndist] at h1 h2
    omega

/-- Two nearest-even indices for the same magnitude coincide: the nearest-even
result is unique, so any correct round-to-nearest reference produces the same
bits. -/
theorem isNearestEven_unique (t i j : ℕ) (hi : IsNearestEven t i)
    (hj : IsNearestEven t j) : i = j := by
  rcases Nat.lt_trichotomy i j with h | h | h
  · exact absurd (isNearestEven_unique_aux t i j h hi hj) (fun f => f)
  · exact h
  · exact absurd (isNearestEven_unique_aux t j i h hj hi) (fun f => f)

theorem ndist_comm (a b : ℕ) : ndist a b = ndist b a := by
  simp only [ndist]
  omega

theorem ndist_mul (a w c : ℕ) : ndist (a * c) (w * c) = ndist a w * c := by
  simp only [ndist]
  rcases Nat.le_total a w with h | h
  · rw [max_eq_right h, min_eq_left h, max_eq_right (Nat.mul_le_mul_right c h),
      min_eq_left (Nat.mul_le_mul_right c h), Nat.sub_mul]
  · rw [max_eq_left h, min_eq_right h, max_eq_left (Nat.mul_le_mul_right c h),
      min_eq_right (Nat.mul_le_mul_right c h), Nat.sub_mul]

theorem narrow1_eq_high (p : ℕ) (hfin : p / 2 ^ 23 % 256 ≠ 255)
    (h143 : 143 ≤ p / 2 ^ 23 % 256) :
    narrow1 p = p / 2 ^ 31 % 2 * 2 ^ 15 + 31744 := by
  rw [narrow1]
  try dsimp only
  rw [if_neg hfin, if_pos h143]

theorem narrow1_eq_mid (p : ℕ) (hfin : p / 2 ^ 23 % 256 ≠ 255)
    (h143 : ¬ 143 ≤ p / 2 ^ 23 % 256) (h113 : 113 ≤ p / 2 ^ 23 % 256) :
    narrow1 p = p / 2 ^ 31 % 2 * 2 ^ 15 +
      ((p / 2 ^ 23 % 256 - 113) * 2 ^ 10 + rne (2 ^ 23 + p % 2 ^ 23) 13) := by
  rw [narrow1]
  try dsimp only
  rw [if_neg hfin, if_neg h143, if_pos h113]

theorem narrow1_eq_low (p : ℕ) (hfin : p / 2 ^ 23 % 256 ≠ 255)
    (h113 : ¬ 113 ≤ p / 2 ^ 23 % 256) :
    narrow1 p = p / 2 ^ 31 % 2 * 2 ^ 15 + rne (f32Mag p) 126 := by
  rw [narrow1]
  try dsimp only
  rw [if_neg hfin, if_neg (by omega : ¬ 143 ≤ p / 2 ^ 23 % 256), if_neg h113]

/-- Packaging: once the branch value of `narrow1` is known and proved nearest,
all four conjuncts of C6 follow. -/
theorem c6_conclude (p R : ℕ) (hR : R ≤ 31744)
    (hval : narrow1 p = p / 2 ^ 31 % 2 * 2 ^ 15 + R)
    (hnear : IsNearestEven (f32Mag p) R) : c6Statement p := by
  have hs2 : p / 2 ^ 31 % 2 < 2 := Nat.mod_lt _ (by norm_num)
  have h1 : narrow1 p / 2 ^ 15 = p / 2 ^ 31 % 2 := by rw [hval]; omega
  have h2 : narrow1 p % 2 ^ 15 = R := by rw [hval]; omega
  refine ⟨h1, by rw [h2]; exact hR, by rw [h2]; exact hnear, fun j hj => ?_⟩
  rw [h2]
  exact isNearestEven_unique _ j R hj hnear

/-- C6: narrowing a finite fp32 pattern produces the sign bit unchanged and
the unique round-to-nearest-even fp16 magnitude (index `0x7C00` denoting
overflow to infinity), hence agrees bit for bit with any reference
round-to-nearest conversion. -/
theorem c6_narrow_rne (p : ℕ) (hp : p < 2 ^ 32) (hfin : p / 2 ^ 23 % 256 ≠ 255) :
    c6Statement p := by
  have hm23 : p % 2 ^ 23 < 2 ^ 23 := Nat.mod_lt _ (by norm_num)
  by_cases h143 : 143 ≤ p / 2 ^ 23 % 256
  · -- overflow branch: every such magnitude is at or above the threshold
    have ht : 2 ^ 166 ≤ f32Mag p := by
      rw [f32Mag, if_neg (by omega)]
      calc (2 : ℕ) ^ 166 = 2 ^ 23 * 2 ^ 143 := by norm_num
      _ ≤ (2 ^ 23 + p % 2 ^ 23) * 2 ^ (p / 2 ^ 23 % 256) :=
        Nat.mul_le_mul (by omega) (Nat.pow_le_pow_right (by norm_num) h143)
    refine c6_conclude p 31744 (le_refl _) (narrow1_eq_high p hfin h143) ?_
    refine isNearestEven_of_local _ _ (le_refl _) (fun h => absurd h (by omega)) ?_
    intro hlt
    rw [val16grid_top] at hlt
    omega
  by_cases h113 : 113 ≤ p / 2 ^ 23 % 256
  · -- normal branch
    obtain ⟨hrlo, hrhi, hrdisj⟩ := rne_spec (2 ^ 23 + p % 2 ^ 23) 13 (by norm_num)
    have hv1 : 1024 ≤ rne (2 ^ 23 + p % 2 ^ 23) 13 := by omega
    have hv2 : rne (2 ^ 23 + p % 2 ^ 23) 13 ≤ 2048 := by omega
    have ht : f32Mag p = (2 ^ 23 + p % 2 ^ 23) * 2 ^ (p / 2 ^ 23 % 256) := by
      rw [f32Mag, if_neg (by omega)]
    have h210 : ((p / 2 ^ 23 % 256 - 113) * 2 ^ 10 + rne (2 ^ 23 + p % 2 ^ 23) 13) =
        ((p / 2 ^ 23 % 256 - 113) * 1024 + rne (2 ^ 23 + p % 2 ^ 23) 13) := by norm_num
    have hval := narrow1_eq_mid p hfin h143 h113
    rw [h210] at hval
    have hRle : (p / 2 ^ 23 % 256 - 113) * 1024 + rne (2 ^ 23 + p % 2 ^ 23) 13 ≤ 31744 := by
      omega
    refine c6_conclude p _ hRle hval ?_
    have hvalR := val16grid_normal (p / 2 ^ 23 % 256) (rne (2 ^ 23 + p % 2 ^ 23) 13)
      h113 (by omega) hv1 hv2
    have hsplit : rne (2 ^ 23 + p % 2 ^ 23) 13 * 2 ^ (p / 2 ^ 23 % 256 + 13) =
        rne (2 ^ 23 + p % 2 ^ 23) 13 * 2 ^ 13 * 2 ^ (p / 2 ^ 23 % 256) := by
      rw [pow_add]
      ring
    have hpe : (0 : ℕ) < 2 ^ (p / 2 ^ 23 % 256) := Nat.pos_pow_of_pos _ (by norm_num)
    have hnd : ndist (f32Mag p) (val16grid ((p / 2 ^ 23 % 256 - 113) * 1024 +
        rne (2 ^ 23 + p % 2 ^ 23) 13)) =
        ndist (2 ^ 23 + p % 2 ^ 23) (rne (2 ^ 23 + p % 2 ^ 23) 13 * 2 ^ 13) *
          2 ^ (p / 2 ^ 23 % 256) := by
      rw [hvalR, ht, hsplit, ndist_mul]
    refine isNearestEven_of_local _ _ hRle ?_ ?_
    · intro hRM hle
      -- t at or above the grid point: the rounded mantissa is below `a`
      have hle2 : rne (2 ^ 23 + p % 2 ^ 23) 13 * 2 ^ 13 ≤ 2 ^ 23 + p % 2 ^ 23 := by
        rw [hvalR, ht, hsplit] at hle
        exact Nat.le_of_mul_le_mul_right hle hpe
      have hv2047 : rne (2 ^ 23 + p % 2 ^ 23) 13 ≤ 2047 := by omega
      have hgap := gap16_normal (p / 2 ^ 23 % 256) (rne (2 ^ 23 + p % 2 ^ 23) 13)
        h113 (by omega) hv1 hv2047
      have hsub : f32Mag p - val16grid ((p / 2 ^ 23 % 256 - 113) * 1024 +
          rne (2 ^ 23 + p % 2 ^ 23) 13) =
          ndist (f32Mag p) (val16grid ((p / 2 ^ 23 % 256 - 113) * 1024 +
            rne (2 ^ 23 + p % 2 ^ 23) 13)) := by
        simp only [ndist]
        omega
      rw [hsub, hnd, hgap]
      have hg13 : (2 : ℕ) ^ (p / 2 ^ 23 % 256 + 13) = 2 ^ 13 * 2 ^ (p / 2 ^ 23 % 256) := by
        rw [pow_add]
        ring
      rw [hg13]
      simp only [ndist] at hrdisj
      simp only [ndist]
      rcases hrdisj with hst | ⟨hti, hev⟩
      · left
        have := Nat.mul_lt_mul_of_lt_of_le hst (le_refl (2 ^ (p / 2 ^ 23 % 256))) hpe
        calc 2 * ((max (2 ^ 23 + p % 2 ^ 23) (rne (2 ^ 23 + p % 2 ^ 23) 13 * 2 ^ 13) -
            min (2 ^ 23 + p % 2 ^ 23) (rne (2 ^ 23 + p % 2 ^ 23) 13 * 2 ^ 13)) *
              2 ^ (p / 2 ^ 23 % 256)) =
            2 * (max (2 ^ 23 + p % 2 ^ 23) (rne (2 ^ 23 + p % 2 ^ 23) 13 * 2 ^ 13) -
              min (2 ^ 23 + p % 2 ^ 23) (rne (2 ^ 23 + p % 2 ^ 23) 13 * 2 ^ 13)) *
              2 ^ (p / 2 ^ 23 % 256) := by ring
        _ < 2 ^ 13 * 2 ^ (p / 2 ^ 23 % 256) := this
      · right
        constructor
        · calc 2 * ((max (2 ^ 23 + p % 2 ^ 23) (rne (2 ^ 23 + p % 2 ^ 23) 13 * 2 ^ 13) -
              min (2 ^ 23 + p % 2 ^ 23) (rne (2 ^ 23 + p % 2 ^ 23) 13 * 2 ^ 13)) *
                2 ^ (p / 2 ^ 23 % 256)) =
              2 * (max (2 ^ 23 + p % 2 ^ 23) (rne (2 ^ 23 + p % 2 ^ 23) 13 * 2 ^ 13) -
                min (2 ^ 23 + p % 2 ^ 23) (rne (2 ^ 23 + p % 2 ^ 23) 13 * 2 ^ 13)) *
                2 ^ (p / 2 ^ 23 % 256) := by ring
          _ = 2 ^ 13 * 2 ^ (p / 2 ^ 23 % 256) := by rw [hti]
        · omega
    · intro hgt
      -- t strictly below the grid point: the rounded mantissa exceeds `a`
      have hgt2 : 2 ^ 23 + p % 2 ^ 23 < rne (2 ^ 23 + p % 2 ^ 23) 13 * 2 ^ 13 := by
        rw [hvalR, ht, hsplit] at hgt
        by_contra hcon
        have hcon2 : rne (2 ^ 23 + p % 2 ^ 23) 13 * 2 ^ 13 ≤ 2 ^ 23 + p % 2 ^ 23 := by
          omega
        have hmul := Nat.mul_le_mul_right (2 ^ (p / 2 ^ 23 % 256)) hcon2
        omega
      have hv1025 : 1025 ≤ rne (2 ^ 23 + p % 2 ^ 23) 13 := by
        by_contra hcon
        have : rne (2 ^ 23 + p % 2 ^ 23) 13 ≤ 1024 := by omega
        have : rne (2 ^ 23 + p % 2 ^ 23) 13 * 2 ^ 13 ≤ 1024 * 2 ^ 13 :=
          Nat.mul_le_mul_right _ this
        omega
      have hRm1 : (p / 2 ^ 23 % 256 - 113) * 1024 + rne (2 ^ 23 + p % 2 ^ 23) 13 - 1 =
          (p / 2 ^ 23 % 256 - 113) * 1024 + (rne (2 ^ 23 + p % 2 ^ 23) 13 - 1) := by omega
      have hgap := gap16_normal (p / 2 ^ 23 % 256) (rne (2 ^ 23 + p % 2 ^ 23) 13 - 1)
        h113 (by omega) (by omega) (by omega)
      have hsub : val16grid ((p / 2 ^ 23 % 256 - 113) * 1024 +
          rne (2 ^ 23 + p % 2 ^ 23) 13) - f32Mag p =
          ndist (f32Mag p) (val16grid ((p / 2 ^ 23 % 256 - 113) * 1024 +
            rne (2 ^ 23 + p % 2 ^ 23) 13)) := by
        simp only [ndist]
        omega
      rw [hRm1, hsub, hnd, hgap]
      have hg13 : (2 : ℕ) ^ (p / 2 ^ 23 % 256 + 13) = 2 ^ 13 * 2 ^ (p / 2 ^ 23 % 256) := by
        rw [pow_add]
        ring
      rw [hg13]
      simp only [ndist] at hrdisj
      simp only [ndist]
      rcases hrdisj with hst | ⟨hti, hev⟩
      · left
        have := Nat.mul_lt_mul_of_lt_of_le hst (le_refl (2 ^ (p / 2 ^ 23 % 256))) hpe
        calc 2 * ((max (2 ^ 23 + p % 2 ^ 23) (rne (2 ^ 23 + p % 2 ^ 23) 13 * 2 ^ 13) -
            min (2 ^ 23 + p % 2 ^ 23) (rne (2 ^ 23 + p % 2 ^ 23) 13 * 2 ^ 13)) *
              2 ^ (p / 2 ^ 23 % 256)) =
            2 * (max (2 ^ 23 + p % 2 ^ 23) (rne (2 ^ 23 + p % 2 ^ 23) 13 * 2 ^ 13) -
              min (2 ^ 23 + p % 2 ^ 23) (rne (2 ^ 23 + p % 2 ^ 23) 13 * 2 ^ 13)) *
              2 ^ (p / 2 ^ 23 % 256) := by ring
        _ < 2 ^ 13 * 2 ^ (p / 2 ^ 23 % 256) := this
      · right
        constructor
        · calc 2 * ((max (2 ^ 23 + p % 2 ^ 23) (rne (2 ^ 23 + p % 2 ^ 23) 13 * 2 ^ 13) -
              min (2 ^ 23 + p % 2 ^ 23) (rne (2 ^ 23 + p % 2 ^ 23) 13 * 2 ^ 13)) *
                2 ^ (p / 2 ^ 23 % 256)) =
              2 * (max (2 ^ 23 + p % 2 ^ 23) (rne (2 ^ 23 + p % 2 ^ 23) 13 * 2 ^ 13) -
                min (2 ^ 23 + p % 2 ^ 23) (rne (2 ^ 23 + p % 2 ^ 23) 13 * 2 ^ 13)) *
                2 ^ (p / 2 ^ 23 % 256) := by ring
          _ = 2 ^ 13 * 2 ^ (p / 2 ^ 23 % 256) := by rw [hti]
        · omega
  · -- small branch: subnormal or underflow range of the fp16 target
    have htlt : f32Mag p < 2 ^ 136 := by
      rw [f32Mag]
      split
      · omega
      · have h1 : 2 ^ 23 + p % 2 ^ 23 < 2 ^ 24 := by omega
        have h2 : (2 : ℕ) ^ (p / 2 ^ 23 % 256) ≤ 2 ^ 112 :=
          Nat.pow_le_pow_right (by norm_num) (by omega)
        calc (2 ^ 23 + p % 2 ^ 23) * 2 ^ (p / 2 ^ 23 % 256) ≤
            (2 ^ 23 + p % 2 ^ 23) * 2 ^ 112 := Nat.mul_le_mul_left _ h2
        _ < 2 ^ 24 * 2 ^ 112 := Nat.mul_lt_mul_of_lt_of_le h1 (le_refl _) (by positivity)
        _ = 2 ^ 136 := by norm_num
    obtain ⟨hrlo, hrhi, hrdisj⟩ := rne_spec (f32Mag p) 126 (by norm_num)
    have hu : f32Mag p / 2 ^ 126 < 1024 := by
      rw [Nat.div_lt_iff_lt_mul (by positivity)]
      calc f32Mag p < 2 ^ 136 := htlt
      _ = 1024 * 2 ^ 126 := by norm_num
    have hR : rne (f32Mag p) 126 ≤ 1024 := by omega
    refine c6_conclude p _ (by omega) (narrow1_eq_low p hfin h113) ?_
    have hvalR := val16grid_le_1024 (rne (f32Mag p) 126) hR
    refine isNearestEven_of_local _ _ (by omega) ?_ ?_
    · intro hRM hle
      have hgap := gap16_le_1024 (rne (f32Mag p) 126) hR
      rw [hvalR, hgap]
      have hsub : f32Mag p - rne (f32Mag p) 126 * 2 ^ 126 =
          ndist (f32Mag p) (rne (f32Mag p) 126 * 2 ^ 126) := by
        rw [hvalR] at hle
        simp only [ndist]
        omega
      rw [hsub]
      exact hrdisj
    · intro hgt
      have hgap := gap16_le_1024 (rne (f32Mag p) 126 - 1) (by omega)
      rw [hvalR, hgap]
      have hsub : rne (f32Mag p) 126 * 2 ^ 126 - f32Mag p =
          ndist (f32Mag p) (rne (f32Mag p) 126 * 2 ^ 126) := by
        rw [hvalR] at hgt
        simp only [ndist]
        omega
      rw [hsub]
      exact hrdisj

/-- Witness for C6 at `p = 0x3FC00000` (the fp32 value 1.5). -/
theorem c6_narrow_rne_witness :
    (1069547520 < 2 ^ 32 ∧ 1069547520 / 2 ^ 23 % 256 ≠ 255) ∧ c6Statement 1069547520 :=
  ⟨⟨by norm_num, by norm_num⟩, c6_narrow_rne 1069547520 (by norm_num) (by norm_num)⟩

end FpCast

